import Mathlib

/-!
Verification development for the address-similarity scoring engine
(src/backend/similarity.py).

Strings are modelled as lists of characters (abbreviation Str).  The
Unicode-dependent primitives used by the Python code (unicodedata NFKC
normalisation, str.lower, NFKD decomposition with removal of combining
marks, and the character classes behind the regexes: word characters,
whitespace, decimal digits) are collected in a TextModel record: the
engine only composes them, so every theorem is stated for an arbitrary
TextModel, with the few concrete facts a proof needs (such as a plain
space being whitespace) taken as explicit hypotheses.  The two external
collaborators are likewise parameters: parse (libpostal parse_address,
returning value/label pairs) and tsr (rapidfuzz fuzz.token_set_ratio
divided by 100, a similarity in the rational interval from 0 to 1).

Python floats are modelled by exact rationals; round(x, 3) is modelled
by exact half-to-even rounding at three decimals.  Python dicts are
modelled by insertion-ordered association lists with unique keys.
-/

set_option maxHeartbeats 1000000

namespace AddrSim

abbrev Str := List Char

/-- The Unicode primitives that the Python code delegates to the
standard library and to the regex engine character classes. -/
structure TextModel where
  nfkc : Str → Str
  lower : Str → Str
  stripDia : Str → Str
  isWord : Char → Bool
  isSpace : Char → Bool
  isDigitC : Char → Bool

/-! ### Rounding: Python round(x, 3), half to even, over exact rationals -/

def roundHalfEven (q : ℚ) : ℤ :=
  if Int.fract q < 1/2 then ⌊q⌋
  else if 1/2 < Int.fract q then ⌊q⌋ + 1
  else if ⌊q⌋ % 2 = 0 then ⌊q⌋ else ⌊q⌋ + 1

def round3 (q : ℚ) : ℚ := (roundHalfEven (q * 1000) : ℚ) / 1000

/-! ### Low level string operations (the regex substitutions of the source)

All of them are structurally recursive so that concrete instances
evaluate inside decide.  The predicate sp stands for the whitespace
class of the model. -/

/-- Python str.strip(): drop whitespace from both ends. -/
def trim (sp : Char → Bool) (l : Str) : Str :=
  ((l.dropWhile sp).reverse.dropWhile sp).reverse

/-- Worker for collapse; the flag records that the previous character
was inside a whitespace run already replaced by a single space. -/
def collapseGo (sp : Char → Bool) : Bool → Str → Str
  | _, [] => []
  | inRun, c :: cs =>
    if sp c then
      if inRun then collapseGo sp true cs else ' ' :: collapseGo sp true cs
    else c :: collapseGo sp false cs

/-- The substitution of a single space for every whitespace run
(re.sub of one or more whitespace characters by one space). -/
def collapse (sp : Char → Bool) (l : Str) : Str := collapseGo sp false l

/-- Worker for respace.  pending holds a run of whitespace characters
whose fate is not decided yet (copied verbatim unless a comma follows);
afterComma records that we sit directly after a rewritten comma, whose
match already consumed the following whitespace. -/
def respaceGo (sp : Char → Bool) : Bool → Str → Str → Str
  | _, pending, [] => pending
  | afterComma, pending, c :: cs =>
    if sp c then
      if afterComma then respaceGo sp true pending cs
      else respaceGo sp false (pending ++ [c]) cs
    else if c = ',' then ',' :: ' ' :: respaceGo sp true [] cs
    else pending ++ c :: respaceGo sp false [] cs

/-- The substitution canonicalising comma spacing: every match of
whitespace-comma-whitespace is replaced by a comma followed by one
space (re.sub of the source, line 69). -/
def respace (sp : Char → Bool) (l : Str) : Str := respaceGo sp false [] l

/-- Worker for splitWS; cur holds the current token reversed. -/
def splitWSGo (sp : Char → Bool) : Str → Str → List Str
  | cur, [] => if cur = [] then [] else [cur.reverse]
  | cur, c :: cs =>
    if sp c then
      if cur = [] then splitWSGo sp [] cs else cur.reverse :: splitWSGo sp [] cs
    else splitWSGo sp (c :: cur) cs

/-- Python str.split() with no argument (also str.split on one space
followed by dropping empty pieces, when sp tests for that space):
the maximal non-whitespace tokens, in order. -/
def splitWS (sp : Char → Bool) (l : Str) : List Str := splitWSGo sp [] l

/-! ### Association lists modelling Python dicts -/

def lookupA {α : Type} (m : List (Str × α)) (k : Str) : Option α :=
  (m.find? (fun p => p.1 == k)).map Prod.snd

/-- Python dict.get(k, default-empty): the empty string both when the
key is absent and when it maps to the empty string, which is exactly
the truthiness the source relies on. -/
def getDS (m : List (Str × Str)) (k : Str) : Str := (lookupA m k).getD []

/-- Keys in first-appearance order, duplicates removed (the iteration
order of a Python dict built with setdefault). -/
def dedupGo : List Str → List Str → List Str
  | _, [] => []
  | seen, k :: ks =>
    if k ∈ seen then dedupGo seen ks else k :: dedupGo (k :: seen) ks

def dedupKeys (l : List Str) : List Str := dedupGo [] l

def joinSpace (l : List Str) : Str := (l.intersperse [' ']).flatten

/-! ### The source functions of src/backend/similarity.py -/

/-- info_level (similarity.py lines 24-52) on a string argument; the
None guard of the source is handled by the Option at the call sites. -/
def info_level (M : TextModel) (s : Str) : ℕ :=
  let s := trim M.isSpace s
  if s = [] then 0
  else
    let s2 := s.map (fun c => if M.isWord c || M.isSpace c then c else ' ')
    let s2 := trim M.isSpace (collapse M.isSpace s2)
    if s2 = [] then 0
    else
      let toks := splitWS (fun c => c == ' ') s2
      let has_digit := s2.any M.isDigitC
      if has_digit then 2
      else if toks.length ≤ 1 then 1
      else if toks.length ≤ 3 then 2
      else 3

/-- The character class kept by the KEEP regex of the source (word
characters, whitespace, comma, slash, hyphen). -/
def keepChar (M : TextModel) (c : Char) : Bool :=
  M.isWord c || M.isSpace c || c == ',' || c == '/' || c == '-'

/-- normalize (similarity.py lines 59-71).  strip_diacritics
(lines 54-56) is the stripDia field of the model, since it is pure
unicodedata plumbing. -/
def normalize (M : TextModel) (s : Str) : Str :=
  let s := trim M.isSpace s
  if s = [] then []
  else
    let s := M.stripDia (M.lower (M.nfkc s))
    let s := s.map (fun c => if c = '—' then '-' else c)
    let s := s.map (fun c => if c = '–' then '-' else c)
    let s := s.map (fun c => if keepChar M c then c else ' ')
    let s := respace M.isSpace s
    let s := collapse M.isSpace s
    trim M.isSpace s

/-- is_short_or_suspicious_road (similarity.py lines 73-81). -/
def is_short_or_suspicious_road (M : TextModel) (s : Str) : Bool :=
  let s := trim M.isSpace s
  if s = [] then true else decide (s.length ≤ 3)

/-- looks_like_postcode_fragment (similarity.py lines 84-87): a pure
digit token of length 3 to 5.  Python isdigit is false on the empty
string, which the length test subsumes. -/
def looks_like_postcode_fragment (M : TextModel) (token : Str) : Bool :=
  let t := trim M.isSpace token
  t.all M.isDigitC && decide (3 ≤ t.length) && decide (t.length ≤ 5)

/-- clean_house_number (similarity.py lines 90-108). -/
def clean_house_number (M : TextModel) (hn : Str) : Str :=
  let hn := trim M.isSpace hn
  if hn = [] then []
  else
    let toks := splitWS M.isSpace hn
    if toks.length ≤ 1 then hn
    else if toks.tail.any (looks_like_postcode_fragment M) then toks.headD []
    else hn

/-- string_fuzzy (similarity.py lines 111-117): token_set_ratio over
100 with a zero guard for empty arguments. -/
def string_fuzzy (tsr : Str → Str → ℚ) (a b : Str) : ℚ :=
  if a = [] ∨ b = [] then 0 else tsr a b

/-- to_components (similarity.py lines 120-128): fold the parser
value/label pairs into a label-keyed map, space-joining the values of
a repeated label in emission order. -/
def to_components (parsed : List (Str × Str)) : List (Str × Str) :=
  (dedupKeys (parsed.map Prod.snd)).map
    (fun lab => (lab, joinSpace ((parsed.filter (fun vl => vl.2 == lab)).map Prod.fst)))

/-- The fuzzy helper of similarity.py lines 131-134 (same body as
string_fuzzy, kept separate as in the source). -/
def fuzzyC (tsr : Str → Str → ℚ) (a b : Str) : ℚ :=
  if a = [] ∨ b = [] then 0 else tsr a b

/-- exactish (similarity.py lines 137-140). -/
def exactish (a b : Str) : ℚ :=
  if a = [] ∨ b = [] then 0 else if a = b then 1 else 0

/-! ### The similarity engine (similarity.py lines 143-242) -/

structure SimilarityResult where
  score : ℚ
  a_components : List (Str × Str)
  b_components : List (Str × Str)
  breakdown : List (Str × ℚ)

def kHouseNumber : Str := String.toList "house_number"
def kRoad : Str := String.toList "road"
def kPostcode : Str := String.toList "postcode"
def kCity : Str := String.toList "city"
def kState : Str := String.toList "state"
def kCountry : Str := String.toList "country"
def kHouse : Str := String.toList "house"
def kCityDistrict : Str := String.toList "city_district"
def kComponentScore : Str := String.toList "component_score"
def kFullFuzzy : Str := String.toList "full_fuzzy"
def kWFuzzy : Str := String.toList "w_fuzzy"

/-- The fixed weight table (similarity.py lines 155-164), in source
order. -/
def weights : List (Str × ℚ) :=
  [(kHouseNumber, 30/100), (kRoad, 35/100), (kPostcode, 15/100),
   (kCity, 10/100), (kState, 5/100), (kCountry, 5/100),
   (kHouse, 3/100), (kCityDistrict, 2/100)]

/-- The body of the per-label loop (similarity.py lines 172-200) for
one key: none when the label is skipped (a side missing, or the road
noise guard), otherwise the label similarity before rounding. -/
def scoreKey (M : TextModel) (tsr : Str → Str → ℚ)
    (ca cb : List (Str × Str)) (key : Str) : Option ℚ :=
  let va := trim M.isSpace (getDS ca key)
  let vb := trim M.isSpace (getDS cb key)
  if va = [] ∨ vb = [] then none
  else
    let va := if key = kHouseNumber then clean_house_number M va else va
    let vb := if key = kHouseNumber then clean_house_number M vb else vb
    if key = kRoad ∧
        (is_short_or_suspicious_road M va ∨ is_short_or_suspicious_road M vb) then
      none
    else if key = kHouseNumber ∨ key = kPostcode then
      some (if exactish va vb = 0 ∧ key = kHouseNumber then fuzzyC tsr va vb
            else exactish va vb)
    else some (fuzzyC tsr va vb)

/-- One iteration of the loop: extend the breakdown and the two
accumulators, or leave them unchanged on a skipped label. -/
def loopStep (M : TextModel) (tsr : Str → Str → ℚ) (ca cb : List (Str × Str))
    (acc : List (Str × ℚ) × ℚ × ℚ) (kw : Str × ℚ) : List (Str × ℚ) × ℚ × ℚ :=
  match scoreKey M tsr ca cb kw.1 with
  | none => acc
  | some s => (acc.1 ++ [(kw.1, round3 s)], acc.2.1 + kw.2 * s, acc.2.2 + kw.2)

/-- The loop of lines 166-200: the breakdown of scored labels, the
weighted sum, and the considered weight. -/
def simParts (M : TextModel) (tsr : Str → Str → ℚ)
    (ca cb : List (Str × Str)) : List (Str × ℚ) × ℚ × ℚ :=
  weights.foldl (loopStep M tsr ca cb) ([], 0, 0)

def breakdown0 (M : TextModel) (tsr : Str → Str → ℚ)
    (ca cb : List (Str × Str)) : List (Str × ℚ) := (simParts M tsr ca cb).1

def weighted_sum (M : TextModel) (tsr : Str → Str → ℚ)
    (ca cb : List (Str × Str)) : ℚ := (simParts M tsr ca cb).2.1

def common_weight_sum (M : TextModel) (tsr : Str → Str → ℚ)
    (ca cb : List (Str × Str)) : ℚ := (simParts M tsr ca cb).2.2

/-- normalized_similarity (line 202). -/
def normalized_similarity (M : TextModel) (tsr : Str → Str → ℚ)
    (ca cb : List (Str × Str)) : ℚ :=
  if 0 < common_weight_sum M tsr ca cb then
    weighted_sum M tsr ca cb / common_weight_sum M tsr ca cb
  else 0

/-- union_keys (line 206): the weighted labels for which either raw
component map carries a truthy (non-empty) value. -/
def unionKeys (ca cb : List (Str × Str)) : List Str :=
  (weights.filter
    (fun kw => !(getDS ca kw.1).isEmpty || !(getDS cb kw.1).isEmpty)).map Prod.fst

/-- weights lookup by label (weights indexing of lines 209-210; every
label looked up is present, the default is never reached). -/
def wLookup (k : Str) : ℚ := (lookupA weights k).getD 0

def union_weight_sum (ca cb : List (Str × Str)) : ℚ :=
  ((unionKeys ca cb).map wLookup).sum

def common_keys (M : TextModel) (tsr : Str → Str → ℚ)
    (ca cb : List (Str × Str)) : List Str :=
  (breakdown0 M tsr ca cb).map Prod.fst

def common_keys_weight_sum (M : TextModel) (tsr : Str → Str → ℚ)
    (ca cb : List (Str × Str)) : ℚ :=
  ((common_keys M tsr ca cb).map wLookup).sum

/-- coverage_ratio (line 212). -/
def coverage_ratio (M : TextModel) (tsr : Str → Str → ℚ)
    (ca cb : List (Str × Str)) : ℚ :=
  if 0 < union_weight_sum ca cb then
    common_keys_weight_sum M tsr ca cb / union_weight_sum ca cb
  else 0

/-- component_score (line 214). -/
def component_score (M : TextModel) (tsr : Str → Str → ℚ)
    (ca cb : List (Str × Str)) : ℚ :=
  normalized_similarity M tsr ca cb * coverage_ratio M tsr ca cb

/-- The fuzzy blend weight (lines 219-225). -/
def w_fuzzy (M : TextModel) (aN bN : Str) : ℚ :=
  if min (info_level M aN) (info_level M bN) ≤ 1 then 5/100 else 15/100

/-- address_similarity (similarity.py lines 143-242), parameterised by
the text model and the two external collaborators. -/
def address_similarity (M : TextModel) (parse : Str → List (Str × Str))
    (tsr : Str → Str → ℚ) (a b : Option Str) : SimilarityResult :=
  let a := a.getD []
  let b := b.getD []
  let a_norm := normalize M a
  let b_norm := normalize M b
  let ca := to_components (parse a_norm)
  let cb := to_components (parse b_norm)
  let cs := component_score M tsr ca cb
  let ff := string_fuzzy tsr a_norm b_norm
  let wf := w_fuzzy M a_norm b_norm
  let final := (1 - wf) * cs + wf * ff
  { score := round3 final
    a_components := ca
    b_components := cb
    breakdown := breakdown0 M tsr ca cb ++
      [(kComponentScore, round3 cs), (kFullFuzzy, round3 ff), (kWFuzzy, round3 wf)] }

/-! ### Spec-side definitions (for refinement-style claims) -/

/-- Modelled from the spec: the informationLevel case table of spec.md
section 4.1 in the order the spec states it (0 if empty after
stripping punctuation; 1 for a single token with no digit; 2 when any
digit is present or there are 2-3 tokens; 3 otherwise). -/
def specInfoLevel (M : TextModel) (s : Str) : ℕ :=
  let s2 := (trim M.isSpace s).map (fun c => if M.isWord c || M.isSpace c then c else ' ')
  let s2 := trim M.isSpace (collapse M.isSpace s2)
  let toks := splitWS (fun c => c == ' ') s2
  let hasDigit := s2.any M.isDigitC
  if s2 = [] then 0
  else if toks.length = 1 ∧ ¬hasDigit then 1
  else if hasDigit ∨ (2 ≤ toks.length ∧ toks.length ≤ 3) then 2
  else 3

/-! ### Derived views of the loop, used to state and prove properties -/

/-- The labels of the weight table that the loop actually scores. -/
def scoredP (M : TextModel) (tsr : Str → Str → ℚ)
    (ca cb : List (Str × Str)) (kw : Str × ℚ) : Bool :=
  (scoreKey M tsr ca cb kw.1).isSome

/-- The raw similarity of a scored label (0 as the unused default). -/
def sVal (M : TextModel) (tsr : Str → Str → ℚ)
    (ca cb : List (Str × Str)) (k : Str) : ℚ :=
  (scoreKey M tsr ca cb k).getD 0

/-! ### Decomposition of trim, and the token view of respace and collapse
(proof infrastructure for the normalizer theorems) -/

def frontTrim (sp : Char → Bool) (l : Str) : Str := l.dropWhile sp

def backTrim (sp : Char → Bool) (l : Str) : Str := (l.reverse.dropWhile sp).reverse

/-- A token of the canonical decomposition of a string: a maximal run
of characters that are neither whitespace nor a comma, or a comma. -/
inductive Tok where
  | word : Str → Tok
  | comma : Tok
deriving DecidableEq

def flushTok (cur : Str) : List Tok :=
  if cur = [] then [] else [Tok.word cur.reverse]

def tokensGo (sp : Char → Bool) : Str → Str → List Tok
  | cur, [] => flushTok cur
  | cur, c :: cs =>
    if sp c then flushTok cur ++ tokensGo sp [] cs
    else if c = ',' then flushTok cur ++ Tok.comma :: tokensGo sp [] cs
    else tokensGo sp (c :: cur) cs

/-- The comma/word token stream of a string (whitespace dropped). -/
def tokens (sp : Char → Bool) (l : Str) : List Tok := tokensGo sp [] l

/-- Renders a token stream in the normal form produced by the comma
respacing, whitespace collapsing and trimming of the normalizer. -/
def render : List Tok → Str
  | [] => []
  | [Tok.comma] => [',']
  | Tok.comma :: rest => ',' :: ' ' :: render rest
  | [Tok.word w] => w
  | Tok.word w :: Tok.comma :: rest => w ++ render (Tok.comma :: rest)
  | Tok.word w :: Tok.word v :: rest => w ++ ' ' :: render (Tok.word v :: rest)

/-- Well formedness of a token: words are non-empty runs of characters
that are neither whitespace nor commas. -/
def wfTok (sp : Char → Bool) : Tok → Prop
  | Tok.word w => w ≠ [] ∧ ∀ c ∈ w, sp c = false ∧ c ≠ ','
  | Tok.comma => True

/-! ### Concrete instances used by witnesses -/

/-- An ASCII instantiation of the text model: identity Unicode
normalisation, ASCII lowercasing, and the ASCII reading of the regex
classes.  Used only to instantiate theorems at concrete inputs. -/
def asciiM : TextModel where
  nfkc := fun s => s
  lower := fun s => s.map Char.toLower
  stripDia := fun s => s
  isWord := fun c => c.isAlphanum || c == '_'
  isSpace := fun c => c == ' ' || c == '\t' || c == '\n' || c == '\r'
  isDigitC := Char.isDigit

/-- A parser stub returning no components (what libpostal does on the
empty string). -/
def parse0 : Str → List (Str × Str) := fun _ => []

/-- A concrete symmetric token-set-ratio stub: full similarity on
equal strings, none otherwise. -/
def tsr0 : Str → Str → ℚ := fun a b => if a = b then 1 else 0

/-- A parser stub for an address with a house number and a road
(constant, hence trivially deterministic). -/
def parseMain : Str → List (Str × Str) :=
  fun _ => [(String.toList "123", kHouseNumber), (String.toList "main st", kRoad)]

/-- A parser stub whose road value is short parser noise. -/
def parseRoadShort : Str → List (Str × Str) :=
  fun _ => [(String.toList "5", kHouseNumber), (String.toList "ab", kRoad)]

/-! ## Lemma layer: dropWhile, trim -/

theorem head?_dropWhile_false {α : Type} (p : α → Bool) :
    ∀ (l : List α) {c : α}, (l.dropWhile p).head? = some c → p c = false := by
  intro l
  induction l with
  | nil => intro c h; simp at h
  | cons x xs ih =>
    intro c h
    by_cases hx : p x
    · rw [List.dropWhile_cons_of_pos hx] at h; exact ih h
    · rw [List.dropWhile_cons_of_neg hx] at h
      simp at h
      rw [← h]
      exact Bool.eq_false_iff.mpr hx

theorem dropWhile_idem {α : Type} (p : α → Bool) (l : List α) :
    (l.dropWhile p).dropWhile p = l.dropWhile p := by
  cases h : l.dropWhile p with
  | nil => simp
  | cons c r =>
    have hc : p c = false := head?_dropWhile_false p l (by rw [h]; rfl)
    exact List.dropWhile_cons_of_neg (by simp [hc])

theorem dropWhile_eq_nil_of_all {α : Type} {p : α → Bool} :
    ∀ {l : List α}, (∀ x ∈ l, p x = true) → l.dropWhile p = [] := by
  intro l
  induction l with
  | nil => intro _; rfl
  | cons x xs ih =>
    intro h
    rw [List.dropWhile_cons_of_pos (h x (by simp))]
    exact ih (fun y hy => h y (by simp [hy]))

theorem length_dropWhile_le' {α : Type} (p : α → Bool) :
    ∀ (l : List α), (l.dropWhile p).length ≤ l.length := by
  intro l
  induction l with
  | nil => simp
  | cons x xs ih =>
    by_cases hx : p x
    · rw [List.dropWhile_cons_of_pos hx]
      exact le_trans ih (by simp)
    · rw [List.dropWhile_cons_of_neg hx]

theorem trim_eq_back_front (sp : Char → Bool) (l : Str) :
    trim sp l = backTrim sp (frontTrim sp l) := rfl

theorem trim_nil (sp : Char → Bool) : trim sp [] = [] := rfl

theorem length_trim_le (sp : Char → Bool) (l : Str) : (trim sp l).length ≤ l.length := by
  unfold trim
  calc (((l.dropWhile sp).reverse.dropWhile sp).reverse).length
      = ((l.dropWhile sp).reverse.dropWhile sp).length := by simp
    _ ≤ (l.dropWhile sp).reverse.length := length_dropWhile_le' _ _
    _ = (l.dropWhile sp).length := by simp
    _ ≤ l.length := length_dropWhile_le' _ _

theorem ne_nil_of_trim_ne_nil {sp : Char → Bool} {l : Str} (h : trim sp l ≠ []) :
    l ≠ [] := by
  intro hl; exact h (by rw [hl]; rfl)

theorem backTrim_nil (sp : Char → Bool) : backTrim sp [] = [] := rfl

theorem backTrim_cons_neg {sp : Char → Bool} {c : Char} (cs : Str) (h : sp c = false) :
    backTrim sp (c :: cs) = c :: backTrim sp cs := by
  unfold backTrim
  rw [List.reverse_cons, List.dropWhile_append]
  by_cases he : (cs.reverse.dropWhile sp).isEmpty
  · rw [if_pos he]
    rw [List.isEmpty_iff] at he
    simp [List.dropWhile_cons, h, he]
  · rw [if_neg he]
    simp

theorem backTrim_cons_pos {sp : Char → Bool} {c : Char} (cs : Str) (h : sp c = true) :
    backTrim sp (c :: cs) =
      if backTrim sp cs = [] then [] else c :: backTrim sp cs := by
  unfold backTrim
  rw [List.reverse_cons, List.dropWhile_append]
  by_cases he : (cs.reverse.dropWhile sp).isEmpty
  · rw [if_pos he]
    rw [List.isEmpty_iff] at he
    simp [List.dropWhile_cons, h, he]
  · rw [if_neg he]
    rw [List.isEmpty_iff] at he
    simp [he]

theorem head?_backTrim {sp : Char → Bool} :
    ∀ {l : Str}, backTrim sp l ≠ [] → (backTrim sp l).head? = l.head? := by
  intro l
  induction l with
  | nil => intro h; rfl
  | cons c cs ih =>
    intro h
    by_cases hc : sp c
    · rw [backTrim_cons_pos cs hc] at h ⊢
      by_cases h2 : backTrim sp cs = []
      · exact absurd (by rw [if_pos h2]) h
      · rw [if_neg h2]; rfl
    · rw [backTrim_cons_neg cs (Bool.eq_false_iff.mpr hc)]; rfl

theorem frontTrim_idem (sp : Char → Bool) (l : Str) :
    frontTrim sp (frontTrim sp l) = frontTrim sp l := dropWhile_idem sp l

theorem backTrim_idem (sp : Char → Bool) (l : Str) :
    backTrim sp (backTrim sp l) = backTrim sp l := by
  unfold backTrim
  rw [List.reverse_reverse, dropWhile_idem]

theorem front_back_comm (sp : Char → Bool) :
    ∀ (l : Str), frontTrim sp (backTrim sp l) = backTrim sp (frontTrim sp l) := by
  intro l
  induction l with
  | nil => rfl
  | cons c cs ih =>
    by_cases hc : sp c
    · rw [backTrim_cons_pos cs hc]
      have hf : frontTrim sp (c :: cs) = frontTrim sp cs :=
        List.dropWhile_cons_of_pos hc
      by_cases h2 : backTrim sp cs = []
      · rw [if_pos h2, hf, ← ih, h2]
      · rw [if_neg h2, hf, ← ih]
        exact List.dropWhile_cons_of_pos hc
    · have hcf : sp c = false := Bool.eq_false_iff.mpr hc
      rw [backTrim_cons_neg cs hcf]
      have hf : frontTrim sp (c :: cs) = c :: cs := List.dropWhile_cons_of_neg hc
      rw [hf, backTrim_cons_neg cs hcf]
      exact List.dropWhile_cons_of_neg hc

theorem trim_idem (sp : Char → Bool) (l : Str) :
    trim sp (trim sp l) = trim sp l := by
  rw [trim_eq_back_front, trim_eq_back_front, front_back_comm, frontTrim_idem,
    backTrim_idem]

theorem trim_allspace {sp : Char → Bool} {l : Str} (h : ∀ c ∈ l, sp c = true) :
    trim sp l = [] := by
  rw [trim_eq_back_front]
  unfold frontTrim
  rw [dropWhile_eq_nil_of_all h]
  rfl

theorem head?_trim_false {sp : Char → Bool} {l : Str} {c : Char}
    (h : (trim sp l).head? = some c) : sp c = false := by
  rw [trim_eq_back_front] at h
  have hne : backTrim sp (frontTrim sp l) ≠ [] := by
    intro he; rw [he] at h; exact Option.noConfusion h
  rw [head?_backTrim hne] at h
  exact head?_dropWhile_false sp l h

theorem getLast?_trim_false {sp : Char → Bool} {l : Str} {c : Char}
    (h : (trim sp l).getLast? = some c) : sp c = false := by
  rw [← List.head?_reverse] at h
  unfold trim at h
  rw [List.reverse_reverse] at h
  exact head?_dropWhile_false sp _ h

/-! ## Lemma layer: rounding -/

theorem roundHalfEven_intCast (n : ℤ) : roundHalfEven (n : ℚ) = n := by
  unfold roundHalfEven
  rw [Int.fract_intCast, Int.floor_intCast]
  norm_num

theorem roundHalfEven_nonneg {q : ℚ} (h : 0 ≤ q) : 0 ≤ roundHalfEven q := by
  have hf : (0 : ℤ) ≤ ⌊q⌋ := Int.floor_nonneg.mpr h
  unfold roundHalfEven
  split
  · exact hf
  · split
    · omega
    · split
      · exact hf
      · omega

theorem roundHalfEven_le {q : ℚ} {n : ℤ} (h : q ≤ (n : ℚ)) : roundHalfEven q ≤ n := by
  have hfl : ⌊q⌋ ≤ n := by
    calc ⌊q⌋ ≤ ⌊(n : ℚ)⌋ := Int.floor_le_floor h
      _ = n := Int.floor_intCast n
  have hstrict : ¬ Int.fract q < 1/2 → ⌊q⌋ + 1 ≤ n := by
    intro hge
    have h0 : (0 : ℚ) < Int.fract q := by
      have : (1:ℚ)/2 ≤ Int.fract q := le_of_not_lt hge
      linarith
    have hlt : (⌊q⌋ : ℚ) < q := by
      have : Int.fract q = q - ⌊q⌋ := Int.self_sub_floor q ▸ rfl
      rw [this] at h0; linarith
    have : (⌊q⌋ : ℚ) < (n : ℚ) := lt_of_lt_of_le hlt h
    have : ⌊q⌋ < n := by exact_mod_cast this
    omega
  unfold roundHalfEven
  split
  · exact hfl
  · rename_i hge
    split
    · exact hstrict hge
    · split
      · exact hfl
      · exact hstrict hge

theorem round3_nonneg {q : ℚ} (h : 0 ≤ q) : 0 ≤ round3 q := by
  unfold round3
  have : (0 : ℤ) ≤ roundHalfEven (q * 1000) := roundHalfEven_nonneg (by positivity)
  have : (0 : ℚ) ≤ (roundHalfEven (q * 1000) : ℚ) := by exact_mod_cast this
  positivity

theorem round3_le_one {q : ℚ} (h : q ≤ 1) : round3 q ≤ 1 := by
  unfold round3
  have h1 : q * 1000 ≤ ((1000 : ℤ) : ℚ) := by push_cast; linarith
  have h2 : roundHalfEven (q * 1000) ≤ 1000 := roundHalfEven_le h1
  have h3 : (roundHalfEven (q * 1000) : ℚ) ≤ 1000 := by exact_mod_cast h2
  linarith

theorem round3_zero : round3 0 = 0 := by
  unfold round3
  rw [show ((0 : ℚ) * 1000) = ((0 : ℤ) : ℚ) by norm_num, roundHalfEven_intCast]
  norm_num

theorem round3_one : round3 1 = 1 := by
  unfold round3
  rw [show ((1 : ℚ) * 1000) = ((1000 : ℤ) : ℚ) by norm_num, roundHalfEven_intCast]
  norm_num

theorem round3_wf_low : round3 (5/100) = 5/100 := by
  unfold round3
  rw [show ((5/100 : ℚ) * 1000) = ((50 : ℤ) : ℚ) by norm_num, roundHalfEven_intCast]
  norm_num

theorem round3_wf_high : round3 (15/100) = 15/100 := by
  unfold round3
  rw [show ((15/100 : ℚ) * 1000) = ((150 : ℤ) : ℚ) by norm_num, roundHalfEven_intCast]
  norm_num

/-! ## Lemma layer: the scoring loop -/

theorem foldl_loopStep (M : TextModel) (tsr : Str → Str → ℚ) (ca cb : List (Str × Str)) :
    ∀ (l : List (Str × ℚ)) (bd : List (Str × ℚ)) (w c : ℚ),
      l.foldl (loopStep M tsr ca cb) (bd, w, c) =
        (bd ++ (l.filter (scoredP M tsr ca cb)).map
            (fun kw => (kw.1, round3 (sVal M tsr ca cb kw.1))),
         w + ((l.filter (scoredP M tsr ca cb)).map
            (fun kw => kw.2 * sVal M tsr ca cb kw.1)).sum,
         c + ((l.filter (scoredP M tsr ca cb)).map Prod.snd).sum) := by
  intro l
  induction l with
  | nil => intro bd w c; simp
  | cons kw rest ih =>
    intro bd w c
    rw [List.foldl_cons]
    cases h : scoreKey M tsr ca cb kw.1 with
    | none =>
      have hs : scoredP M tsr ca cb kw = false := by simp [scoredP, h]
      rw [show loopStep M tsr ca cb (bd, w, c) kw = (bd, w, c) from by
        simp [loopStep, h]]
      rw [ih]
      simp [List.filter_cons, hs]
    | some s =>
      have hs : scoredP M tsr ca cb kw = true := by simp [scoredP, h]
      have hv : sVal M tsr ca cb kw.1 = s := by simp [sVal, h]
      rw [show loopStep M tsr ca cb (bd, w, c) kw
          = (bd ++ [(kw.1, round3 s)], w + kw.2 * s, c + kw.2) from by
        simp [loopStep, h]]
      rw [ih]
      simp [List.filter_cons, hs, hv, add_assoc]

theorem breakdown0_eq (M : TextModel) (tsr : Str → Str → ℚ) (ca cb : List (Str × Str)) :
    breakdown0 M tsr ca cb =
      (weights.filter (scoredP M tsr ca cb)).map
        (fun kw => (kw.1, round3 (sVal M tsr ca cb kw.1))) := by
  unfold breakdown0 simParts
  rw [foldl_loopStep]
  simp

theorem weighted_sum_eq (M : TextModel) (tsr : Str → Str → ℚ) (ca cb : List (Str × Str)) :
    weighted_sum M tsr ca cb =
      ((weights.filter (scoredP M tsr ca cb)).map
        (fun kw => kw.2 * sVal M tsr ca cb kw.1)).sum := by
  unfold weighted_sum simParts
  rw [foldl_loopStep]
  simp

theorem common_weight_sum_eq (M : TextModel) (tsr : Str → Str → ℚ)
    (ca cb : List (Str × Str)) :
    common_weight_sum M tsr ca cb =
      ((weights.filter (scoredP M tsr ca cb)).map Prod.snd).sum := by
  unfold common_weight_sum simParts
  rw [foldl_loopStep]
  simp

theorem common_keys_eq (M : TextModel) (tsr : Str → Str → ℚ) (ca cb : List (Str × Str)) :
    common_keys M tsr ca cb = (weights.filter (scoredP M tsr ca cb)).map Prod.fst := by
  unfold common_keys
  rw [breakdown0_eq, List.map_map]
  rfl

theorem weights_pos : ∀ kw ∈ weights, (0:ℚ) < kw.2 := by
  intro kw h
  fin_cases h <;> norm_num

theorem wLookup_self : ∀ kw ∈ weights, wLookup kw.1 = kw.2 := by
  intro kw h
  fin_cases h <;> rfl

/-! ## Claim theorems -/

/-- C9: clean_house_number splits its trimmed argument on whitespace;
with 0 or 1 tokens it returns the trimmed string as is; if any token
after the first is a pure digit string of length 3 to 5 it returns
only the first token; otherwise it returns the trimmed string
unchanged.  In particular it maps "202 1014" to "202" and leaves
"12-A" unchanged. -/
theorem claim_C9_clean_house_number :
    (∀ (M : TextModel) (hn : Str),
      ((splitWS M.isSpace (trim M.isSpace hn)).length ≤ 1 →
        clean_house_number M hn = trim M.isSpace hn) ∧
      (2 ≤ (splitWS M.isSpace (trim M.isSpace hn)).length →
        ((splitWS M.isSpace (trim M.isSpace hn)).tail.any
            (looks_like_postcode_fragment M) = true →
          clean_house_number M hn =
            (splitWS M.isSpace (trim M.isSpace hn)).headD []) ∧
        ((splitWS M.isSpace (trim M.isSpace hn)).tail.any
            (looks_like_postcode_fragment M) = false →
          clean_house_number M hn = trim M.isSpace hn))) ∧
    clean_house_number asciiM (String.toList "202 1014") = String.toList "202" ∧
    clean_house_number asciiM (String.toList "12-A") = String.toList "12-A" := by
  refine ⟨?_, by decide, by decide⟩
  intro M hn
  constructor
  · intro hlen
    by_cases h0 : trim M.isSpace hn = []
    · simp [clean_house_number, h0]
    · simp [clean_house_number, h0, hlen]
  · intro h2
    have hlen : ¬ (splitWS M.isSpace (trim M.isSpace hn)).length ≤ 1 := by omega
    have h0 : trim M.isSpace hn ≠ [] := by
      intro h
      rw [h] at h2
      simp [splitWS, splitWSGo] at h2
    constructor
    · intro hany
      simp [clean_house_number, h0, hlen, hany]
    · intro hany
      simp [clean_house_number, h0, hlen, hany]

/-- Witness for C9: the single-token case returns the trimmed string,
and the postcode-fragment case returns the first token, at concrete
inputs. -/
theorem claim_C9_clean_house_number_witness :
    clean_house_number asciiM (String.toList " 47 ")
        = trim asciiM.isSpace (String.toList " 47 ") ∧
    clean_house_number asciiM (String.toList "202 1014")
        = (splitWS asciiM.isSpace (trim asciiM.isSpace (String.toList "202 1014"))).headD [] := by
  constructor
  · exact (claim_C9_clean_house_number.1 asciiM (String.toList " 47 ")).1 (by decide)
  · exact ((claim_C9_clean_house_number.1 asciiM
      (String.toList "202 1014")).2 (by decide)).1 (by decide)

/-- C10: the component maps returned in the result are exactly the
maps folded from the parser output of the normalized inputs; the
house-number cleanup and the road-noise guard act on scoring copies
only and never alter the returned maps. -/
theorem claim_C10_components_frame (M : TextModel) (parse : Str → List (Str × Str))
    (tsr : Str → Str → ℚ) (a b : Option Str) :
    (address_similarity M parse tsr a b).a_components
        = to_components (parse (normalize M (a.getD []))) ∧
    (address_similarity M parse tsr a b).b_components
        = to_components (parse (normalize M (b.getD []))) :=
  ⟨rfl, rfl⟩

/-- C1 counterexample: with both inputs absent the returned breakdown
map is not empty, against the claim; it always carries the three
diagnostic entries. -/
theorem claim_C1_counterexample :
    (address_similarity asciiM parse0 tsr0 none none).breakdown ≠ [] := by
  decide

/-- C1 (amended): for both inputs absent, and the parser returning the
empty component sequence on the empty string, the result has score
0.0, empty component maps, and a breakdown holding exactly the three
diagnostic entries (component_score 0, full_fuzzy 0, w_fuzzy 0.05) and
no scored labels.  Totality over all inputs is by construction of the
embedding. -/
theorem claim_C1_empty_inputs (M : TextModel) (parse : Str → List (Str × Str))
    (tsr : Str → Str → ℚ) (hp : parse [] = []) :
    (address_similarity M parse tsr none none).score = 0 ∧
    (address_similarity M parse tsr none none).a_components = [] ∧
    (address_similarity M parse tsr none none).b_components = [] ∧
    (address_similarity M parse tsr none none).breakdown =
      [(kComponentScore, 0), (kFullFuzzy, 0), (kWFuzzy, 5/100)] := by
  have hnorm : normalize M [] = [] := rfl
  have hc : to_components (parse []) = [] := by rw [hp]; rfl
  have hsk : ∀ k, scoreKey M tsr [] [] k = none := by
    intro k
    simp [scoreKey, getDS, lookupA, trim]
  have hfil : weights.filter (scoredP M tsr ([] : List (Str × Str)) []) = [] := by
    apply List.filter_eq_nil_iff.mpr
    intro kw _
    simp [scoredP, hsk]
  have hbd : breakdown0 M tsr [] [] = [] := by
    rw [breakdown0_eq, hfil]
    rfl
  have hcw : common_weight_sum M tsr [] [] = 0 := by
    rw [common_weight_sum_eq, hfil]
    rfl
  have hns : normalized_similarity M tsr [] [] = 0 := by
    simp [normalized_similarity, hcw]
  have hcs : component_score M tsr [] [] = 0 := by
    simp [component_score, hns]
  have hsf : string_fuzzy tsr [] [] = 0 := by simp [string_fuzzy]
  have hwf : w_fuzzy M [] [] = 5/100 := by
    simp [w_fuzzy, info_level, trim_nil]
  refine ⟨?_, ?_, ?_, ?_⟩
  · show round3 ((1 - w_fuzzy M (normalize M []) (normalize M [])) *
        component_score M tsr (to_components (parse (normalize M [])))
          (to_components (parse (normalize M []))) +
        w_fuzzy M (normalize M []) (normalize M []) *
          string_fuzzy tsr (normalize M []) (normalize M [])) = 0
    rw [hnorm, hc, hcs, hwf, hsf]
    rw [show ((1 - (5:ℚ)/100) * 0 + 5/100 * 0) = 0 by ring]
    exact round3_zero
  · show to_components (parse (normalize M [])) = []
    rw [hnorm, hc]
  · show to_components (parse (normalize M [])) = []
    rw [hnorm, hc]
  · show breakdown0 M tsr (to_components (parse (normalize M [])))
          (to_components (parse (normalize M []))) ++
        [(kComponentScore, round3 (component_score M tsr
            (to_components (parse (normalize M [])))
            (to_components (parse (normalize M []))))),
         (kFullFuzzy, round3 (string_fuzzy tsr (normalize M []) (normalize M []))),
         (kWFuzzy, round3 (w_fuzzy M (normalize M []) (normalize M [])))] = _
    rw [hnorm, hc, hbd, hcs, hsf, hwf, round3_zero, round3_wf_low]
    rfl

/-- Witness for C1 (amended), at the ASCII model with the empty parser
and a concrete similarity stub. -/
theorem claim_C1_empty_inputs_witness :
    (address_similarity asciiM parse0 tsr0 none none).score = 0 ∧
    (address_similarity asciiM parse0 tsr0 none none).breakdown =
      [(kComponentScore, 0), (kFullFuzzy, 0), (kWFuzzy, 5/100)] := by
  have h := claim_C1_empty_inputs asciiM parse0 tsr0 rfl
  exact ⟨h.1, h.2.2.2⟩

/-- The road-noise predicate accepts every string of length at most 3. -/
theorem is_short_of_short {M : TextModel} {y : Str} (h : y.length ≤ 3) :
    is_short_or_suspicious_road M y = true := by
  show (if trim M.isSpace y = [] then true
    else decide ((trim M.isSpace y).length ≤ 3)) = true
  by_cases hs : trim M.isSpace y = []
  · rw [if_pos hs]
  · rw [if_neg hs]
    simp only [decide_eq_true_eq]
    exact le_trans (length_trim_le _ _) h

/-- The road label is skipped whenever either raw road value has
length at most 3. -/
theorem scoreKey_road_none {M : TextModel} {tsr : Str → Str → ℚ}
    {ca cb : List (Str × Str)}
    (hshort : (getDS ca kRoad).length ≤ 3 ∨ (getDS cb kRoad).length ≤ 3) :
    scoreKey M tsr ca cb kRoad = none := by
  have hkhn : kRoad ≠ kHouseNumber := by decide
  by_cases hva : trim M.isSpace (getDS ca kRoad) = []
  · simp [scoreKey, hva]
  · by_cases hvb : trim M.isSpace (getDS cb kRoad) = []
    · simp [scoreKey, hvb]
    · have hguard :
          is_short_or_suspicious_road M (trim M.isSpace (getDS ca kRoad)) = true ∨
          is_short_or_suspicious_road M (trim M.isSpace (getDS cb kRoad)) = true := by
        cases hshort with
        | inl h => exact Or.inl (is_short_of_short (le_trans (length_trim_le _ _) h))
        | inr h => exact Or.inr (is_short_of_short (le_trans (length_trim_le _ _) h))
      simp [scoreKey, hva, hvb, hkhn, hguard]

/-- C8: when both parsed component maps carry a non-empty road value
and either side's road value has length at most 3, the road label is
skipped entirely: its scoring is none (so it contributes neither to
the weighted sum nor to the considered weight) and road does not
appear among the keys of the returned breakdown. -/
theorem claim_C8_road_guard (M : TextModel) (parse : Str → List (Str × Str))
    (tsr : Str → Str → ℚ) (a b : Option Str)
    (hra : getDS (to_components (parse (normalize M (a.getD [])))) kRoad ≠ [])
    (hrb : getDS (to_components (parse (normalize M (b.getD [])))) kRoad ≠ [])
    (hshort : (getDS (to_components (parse (normalize M (a.getD [])))) kRoad).length ≤ 3
      ∨ (getDS (to_components (parse (normalize M (b.getD [])))) kRoad).length ≤ 3) :
    scoreKey M tsr (to_components (parse (normalize M (a.getD []))))
        (to_components (parse (normalize M (b.getD [])))) kRoad = none ∧
    kRoad ∉ ((address_similarity M parse tsr a b).breakdown.map Prod.fst) := by
  have hsknone := @scoreKey_road_none M tsr _ _ hshort
  refine ⟨hsknone, ?_⟩
  intro hmem
  have hbd : (address_similarity M parse tsr a b).breakdown =
      breakdown0 M tsr (to_components (parse (normalize M (a.getD []))))
        (to_components (parse (normalize M (b.getD [])))) ++
      [(kComponentScore, _), (kFullFuzzy, _), (kWFuzzy, _)] := rfl
  rw [hbd, List.map_append, List.mem_append] at hmem
  cases hmem with
  | inl h =>
    rw [breakdown0_eq, List.map_map] at h
    simp only [List.mem_map, List.mem_filter, Function.comp] at h
    obtain ⟨kw, ⟨_, hsome⟩, hfst⟩ := h
    simp only [scoredP, hfst, hsknone, Option.isSome_none] at hsome
    exact Bool.noConfusion hsome
  | inr h =>
    have : kRoad ∉ ([(kComponentScore, (0:ℚ)), (kFullFuzzy, 0), (kWFuzzy, 0)].map
        Prod.fst) := by decide
    simp only [List.map_cons, List.map_nil, List.mem_cons, List.not_mem_nil] at h this
    tauto

/-- Every token produced by whitespace splitting is non-empty. -/
theorem splitWSGo_mem_ne_nil {sp : Char → Bool} :
    ∀ (l cur : Str) (t : Str), t ∈ splitWSGo sp cur l → t ≠ [] := by
  intro l
  induction l with
  | nil =>
    intro cur t ht
    unfold splitWSGo at ht
    by_cases hc : cur = []
    · rw [if_pos hc] at ht; exact absurd ht (List.not_mem_nil t)
    · rw [if_neg hc] at ht
      simp at ht
      rw [ht]
      simp [hc]
  | cons c cs ih =>
    intro cur t ht
    unfold splitWSGo at ht
    by_cases hsp : sp c
    · rw [if_pos hsp] at ht
      by_cases hc : cur = []
      · rw [if_pos hc] at ht; exact ih [] t ht
      · rw [if_neg hc] at ht
        rcases List.mem_cons.mp ht with h | h
        · rw [h]; simp [hc]
        · exact ih [] t h
    · rw [if_neg hsp] at ht
      exact ih (c :: cur) t ht

theorem splitWS_mem_ne_nil {sp : Char → Bool} {l t : Str}
    (h : t ∈ splitWS sp l) : t ≠ [] :=
  splitWSGo_mem_ne_nil l [] t h

/-- House-number cleanup of a trimmed non-empty string is non-empty. -/
theorem clean_ne_nil {M : TextModel} {v : Str} (hv : trim M.isSpace v = v)
    (h : v ≠ []) : clean_house_number M v ≠ [] := by
  show (if trim M.isSpace v = [] then [] else
    if (splitWS M.isSpace (trim M.isSpace v)).length ≤ 1 then trim M.isSpace v
    else if (splitWS M.isSpace (trim M.isSpace v)).tail.any (looks_like_postcode_fragment M) then
      (splitWS M.isSpace (trim M.isSpace v)).headD []
    else trim M.isSpace v) ≠ []
  rw [hv, if_neg h]
  by_cases h1 : (splitWS M.isSpace v).length ≤ 1
  · rw [if_pos h1]; exact h
  · rw [if_neg h1]
    by_cases h2 : (splitWS M.isSpace v).tail.any (looks_like_postcode_fragment M)
    · rw [if_pos h2]
      cases htoks : splitWS M.isSpace v with
      | nil => rw [htoks] at h1; simp at h1
      | cons t ts =>
        show t ≠ []
        exact splitWS_mem_ne_nil (by rw [htoks]; exact List.mem_cons_self t ts)
    · rw [if_neg h2]; exact h

theorem exactish_self {x : Str} (h : x ≠ []) : exactish x x = 1 := by
  unfold exactish
  rw [if_neg (by simp [h]), if_pos rfl]

theorem fuzzyC_self {tsr : Str → Str → ℚ} {x : Str}
    (htsr : ∀ y : Str, y ≠ [] → tsr y y = 1) (h : x ≠ []) : fuzzyC tsr x x = 1 := by
  unfold fuzzyC
  rw [if_neg (by simp [h])]
  exact htsr x h

/-- With equal component maps, a present label whose value does not
strip to empty (and, for road, passes the noise guard) scores exactly
1. -/
theorem scoreKey_self_eq_one (M : TextModel) (tsr : Str → Str → ℚ)
    (c : List (Str × Str)) (k : Str)
    (htsr : ∀ x : Str, x ≠ [] → tsr x x = 1)
    (htrim : trim M.isSpace (getDS c k) ≠ [])
    (hroadk : k = kRoad →
      is_short_or_suspicious_road M (trim M.isSpace (getDS c k)) = false) :
    scoreKey M tsr c c k = some 1 := by
  by_cases hk : k = kHouseNumber
  · subst hk
    have hcln : clean_house_number M (trim M.isSpace (getDS c kHouseNumber)) ≠ [] :=
      clean_ne_nil (trim_idem _ _) htrim
    have hex : exactish (clean_house_number M (trim M.isSpace (getDS c kHouseNumber)))
        (clean_house_number M (trim M.isSpace (getDS c kHouseNumber))) = 1 :=
      exactish_self hcln
    have hkr : kHouseNumber ≠ kRoad := by decide
    simp [scoreKey, htrim, hkr, hex]
  · by_cases hr : k = kRoad
    · subst hr
      have hg := hroadk rfl
      have hkh : kRoad ≠ kHouseNumber := by decide
      have hkp : kRoad ≠ kPostcode := by decide
      have hf := @fuzzyC_self tsr _ htsr htrim
      simp [scoreKey, htrim, hkh, hkp, hg, hf]
    · by_cases hp : k = kPostcode
      · subst hp
        have hkh : kPostcode ≠ kHouseNumber := by decide
        have hex := exactish_self htrim
        simp [scoreKey, htrim, hkh, hr, hex]
      · have hf := @fuzzyC_self tsr _ htsr htrim
        simp [scoreKey, htrim, hk, hr, hp, hf]

/-- An absent (or empty) label is never scored. -/
theorem scoreKey_absent_left (M : TextModel) (tsr : Str → Str → ℚ)
    (ca cb : List (Str × Str)) (k : Str) (h : getDS ca k = []) :
    scoreKey M tsr ca cb k = none := by
  simp [scoreKey, h, trim_nil]

/-- C2: for a non-empty well-formed address (the normalized string is
non-empty, the parser is a fixed function, every present weighted
label survives stripping, a present road value passes the noise guard,
and at least one weighted label is present), scoring a string against
itself yields exactly 1.0. -/
theorem claim_C2_identity (M : TextModel) (parse : Str → List (Str × Str))
    (tsr : Str → Str → ℚ) (s : Str)
    (htsr : ∀ x : Str, x ≠ [] → tsr x x = 1)
    (hne : normalize M s ≠ [])
    (hvals : ∀ k ∈ weights.map Prod.fst,
      getDS (to_components (parse (normalize M s))) k ≠ [] →
      trim M.isSpace (getDS (to_components (parse (normalize M s))) k) ≠ [])
    (hroad : getDS (to_components (parse (normalize M s))) kRoad ≠ [] →
      is_short_or_suspicious_road M
        (trim M.isSpace (getDS (to_components (parse (normalize M s))) kRoad)) = false)
    (hsome : ∃ k ∈ weights.map Prod.fst,
      getDS (to_components (parse (normalize M s))) k ≠ []) :
    (address_similarity M parse tsr (some s) (some s)).score = 1 := by
  show round3 ((1 - w_fuzzy M (normalize M s) (normalize M s)) *
      component_score M tsr (to_components (parse (normalize M s)))
        (to_components (parse (normalize M s))) +
      w_fuzzy M (normalize M s) (normalize M s) *
        string_fuzzy tsr (normalize M s) (normalize M s)) = 1
  set n := normalize M s with hn
  set c := to_components (parse n) with hcdef
  have hkey : ∀ k ∈ weights.map Prod.fst, getDS c k ≠ [] →
      scoreKey M tsr c c k = some 1 := by
    intro k hkmem hkne
    refine scoreKey_self_eq_one M tsr c k htsr (hvals k hkmem hkne) ?_
    intro hkr
    subst hkr
    exact hroad hkne
  have hfilter : weights.filter (scoredP M tsr c c) =
      weights.filter (fun kw => !(getDS c kw.1).isEmpty) := by
    apply List.filter_congr
    intro kw hkw
    by_cases hx : getDS c kw.1 = []
    · simp [scoredP, scoreKey_absent_left M tsr c c kw.1 hx, hx]
    · simp [scoredP, hkey kw.1 (List.mem_map_of_mem _ hkw) hx, hx]
  have hFsub : ∀ kw ∈ weights.filter (fun kw => !(getDS c kw.1).isEmpty), kw ∈ weights :=
    fun kw h => (List.mem_filter.mp h).1
  have hFne : weights.filter (fun kw => !(getDS c kw.1).isEmpty) ≠ [] := by
    obtain ⟨k, hk, hkne⟩ := hsome
    rw [List.mem_map] at hk
    obtain ⟨kw, hkw, rfl⟩ := hk
    intro hFnil
    have hmem : kw ∈ weights.filter (fun kw => !(getDS c kw.1).isEmpty) :=
      List.mem_filter.mpr ⟨hkw, by simp [hkne]⟩
    rw [hFnil] at hmem
    exact List.not_mem_nil _ hmem
  have hsval : ∀ kw ∈ weights.filter (fun kw => !(getDS c kw.1).isEmpty),
      sVal M tsr c c kw.1 = 1 := by
    intro kw hkw
    have hx : getDS c kw.1 ≠ [] := by
      have h1 := (List.mem_filter.mp hkw).2
      simpa using h1
    simp [sVal, hkey kw.1 (List.mem_map_of_mem _ (hFsub kw hkw)) hx]
  have hws : weighted_sum M tsr c c =
      ((weights.filter (fun kw => !(getDS c kw.1).isEmpty)).map Prod.snd).sum := by
    rw [weighted_sum_eq, hfilter]
    congr 1
    apply List.map_congr_left
    intro kw hkw
    rw [hsval kw hkw, mul_one]
  have hcw : common_weight_sum M tsr c c =
      ((weights.filter (fun kw => !(getDS c kw.1).isEmpty)).map Prod.snd).sum := by
    rw [common_weight_sum_eq, hfilter]
  have hpos : 0 < ((weights.filter (fun kw => !(getDS c kw.1).isEmpty)).map Prod.snd).sum := by
    apply List.sum_pos
    · intro x hx
      rw [List.mem_map] at hx
      obtain ⟨kw, hkw, rfl⟩ := hx
      exact weights_pos kw (hFsub kw hkw)
    · simp [hFne]
  have hns : normalized_similarity M tsr c c = 1 := by
    unfold normalized_similarity
    rw [hws, hcw, if_pos hpos, div_self (ne_of_gt hpos)]
  have hunion : unionKeys c c =
      (weights.filter (fun kw => !(getDS c kw.1).isEmpty)).map Prod.fst := by
    unfold unionKeys
    congr 1
    apply List.filter_congr
    intro kw _
    rw [Bool.or_self]
  have hcommon : common_keys M tsr c c =
      (weights.filter (fun kw => !(getDS c kw.1).isEmpty)).map Prod.fst := by
    rw [common_keys_eq, hfilter]
  have hsum_lookup :
      (((weights.filter (fun kw => !(getDS c kw.1).isEmpty)).map Prod.fst).map wLookup).sum =
      ((weights.filter (fun kw => !(getDS c kw.1).isEmpty)).map Prod.snd).sum := by
    rw [List.map_map]
    congr 1
    apply List.map_congr_left
    intro kw hkw
    exact wLookup_self kw (hFsub kw hkw)
  have hcov : coverage_ratio M tsr c c = 1 := by
    unfold coverage_ratio union_weight_sum common_keys_weight_sum
    rw [hunion, hcommon, hsum_lookup, if_pos hpos, div_self (ne_of_gt hpos)]
  have hcs : component_score M tsr c c = 1 := by
    unfold component_score
    rw [hns, hcov]
    ring
  have hff : string_fuzzy tsr n n = 1 := by
    unfold string_fuzzy
    rw [if_neg (by simp [hne])]
    exact htsr n hne
  rw [hcs, hff]
  rw [show (1 - w_fuzzy M n n) * 1 + w_fuzzy M n n * 1 = 1 by ring]
  exact round3_one

/-- Witness for C2 at a concrete well-formed address with a constant
parser stub and an equality-based similarity stub. -/
theorem claim_C2_identity_witness :
    (address_similarity asciiM parseMain tsr0
      (some (String.toList "123 Main St")) (some (String.toList "123 Main St"))).score = 1 :=
  claim_C2_identity asciiM parseMain tsr0 (String.toList "123 Main St")
    (fun x hx => by simp [tsr0])
    (by decide) (by decide) (by decide) (by decide)

/-- Witness for C8 at a parser stub whose road value is the two
character string ab. -/
theorem claim_C8_road_guard_witness :
    scoreKey asciiM tsr0
        (to_components (parseRoadShort (normalize asciiM ((some (String.toList "5 ab")).getD []))))
        (to_components (parseRoadShort (normalize asciiM ((some (String.toList "5 ab")).getD []))))
        kRoad = none ∧
    kRoad ∉ ((address_similarity asciiM parseRoadShort tsr0
        (some (String.toList "5 ab")) (some (String.toList "5 ab"))).breakdown.map Prod.fst) :=
  claim_C8_road_guard asciiM parseRoadShort tsr0
    (some (String.toList "5 ab")) (some (String.toList "5 ab"))
    (by decide) (by decide) (Or.inl (by decide))

/-! ## Lemma layer: bounds (claim C4) -/

theorem exactish_bounds (a b : Str) : 0 ≤ exactish a b ∧ exactish a b ≤ 1 := by
  unfold exactish
  split_ifs <;> norm_num

theorem fuzzyC_bounds {tsr : Str → Str → ℚ}
    (hb : ∀ x y : Str, 0 ≤ tsr x y ∧ tsr x y ≤ 1) (a b : Str) :
    0 ≤ fuzzyC tsr a b ∧ fuzzyC tsr a b ≤ 1 := by
  unfold fuzzyC
  split_ifs
  · norm_num
  · exact hb a b

theorem string_fuzzy_bounds {tsr : Str → Str → ℚ}
    (hb : ∀ x y : Str, 0 ≤ tsr x y ∧ tsr x y ≤ 1) (a b : Str) :
    0 ≤ string_fuzzy tsr a b ∧ string_fuzzy tsr a b ≤ 1 := by
  unfold string_fuzzy
  split_ifs
  · norm_num
  · exact hb a b

theorem scoreKey_bounds {M : TextModel} {tsr : Str → Str → ℚ}
    {ca cb : List (Str × Str)} {k : Str} {s : ℚ}
    (hb : ∀ x y : Str, 0 ≤ tsr x y ∧ tsr x y ≤ 1)
    (h : scoreKey M tsr ca cb k = some s) : 0 ≤ s ∧ s ≤ 1 := by
  by_cases h1 : trim M.isSpace (getDS ca k) = [] ∨ trim M.isSpace (getDS cb k) = []
  · have hnone : scoreKey M tsr ca cb k = none := by
      simp only [scoreKey]
      rw [if_pos h1]
    rw [hnone] at h
    exact Option.noConfusion h
  · simp only [scoreKey, if_neg h1] at h
    split_ifs at h
    all_goals injection h with h
    all_goals rw [← h]
    · exact fuzzyC_bounds hb _ _
    · exact exactish_bounds _ _
    · exact fuzzyC_bounds hb _ _
    · exact fuzzyC_bounds hb _ _
    · exact exactish_bounds _ _
    · exact fuzzyC_bounds hb _ _

theorem sVal_bounds {M : TextModel} {tsr : Str → Str → ℚ}
    {ca cb : List (Str × Str)} {kw : Str × ℚ}
    (hb : ∀ x y : Str, 0 ≤ tsr x y ∧ tsr x y ≤ 1)
    (h : scoredP M tsr ca cb kw = true) :
    0 ≤ sVal M tsr ca cb kw.1 ∧ sVal M tsr ca cb kw.1 ≤ 1 := by
  unfold scoredP at h
  cases hsk : scoreKey M tsr ca cb kw.1 with
  | none => rw [hsk] at h; exact Bool.noConfusion h
  | some s =>
    have := scoreKey_bounds hb hsk
    simp [sVal, hsk, this]

theorem normalized_similarity_bounds (M : TextModel) (tsr : Str → Str → ℚ)
    (ca cb : List (Str × Str))
    (hb : ∀ x y : Str, 0 ≤ tsr x y ∧ tsr x y ≤ 1) :
    0 ≤ normalized_similarity M tsr ca cb ∧ normalized_similarity M tsr ca cb ≤ 1 := by
  unfold normalized_similarity
  split_ifs with hpos
  · constructor
    · apply div_nonneg _ (le_of_lt hpos)
      rw [weighted_sum_eq]
      apply List.sum_nonneg
      intro x hx
      rw [List.mem_map] at hx
      obtain ⟨kw, hkw, rfl⟩ := hx
      have hsc := (List.mem_filter.mp hkw).2
      have hwnn : (0:ℚ) ≤ kw.2 := le_of_lt (weights_pos kw (List.mem_filter.mp hkw).1)
      exact mul_nonneg hwnn (sVal_bounds hb hsc).1
    · rw [div_le_one hpos]
      rw [weighted_sum_eq, common_weight_sum_eq]
      apply List.sum_le_sum
      intro kw hkw
      have hsc := (List.mem_filter.mp hkw).2
      have hwnn : (0:ℚ) ≤ kw.2 := le_of_lt (weights_pos kw (List.mem_filter.mp hkw).1)
      calc kw.2 * sVal M tsr ca cb kw.1 ≤ kw.2 * 1 :=
            mul_le_mul_of_nonneg_left (sVal_bounds hb hsc).2 hwnn
        _ = kw.2 := mul_one kw.2
  · norm_num

/-- A scored label is structurally present on both sides. -/
theorem scoreKey_isSome_present {M : TextModel} {tsr : Str → Str → ℚ}
    {ca cb : List (Str × Str)} {k : Str}
    (h : (scoreKey M tsr ca cb k).isSome = true) :
    getDS ca k ≠ [] ∧ getDS cb k ≠ [] := by
  by_cases h1 : trim M.isSpace (getDS ca k) = [] ∨ trim M.isSpace (getDS cb k) = []
  · have hnone : scoreKey M tsr ca cb k = none := by
      simp only [scoreKey]
      rw [if_pos h1]
    rw [hnone] at h
    exact Bool.noConfusion h
  · push_neg at h1
    exact ⟨ne_nil_of_trim_ne_nil h1.1, ne_nil_of_trim_ne_nil h1.2⟩

theorem scored_imp_union (M : TextModel) (tsr : Str → Str → ℚ)
    (ca cb : List (Str × Str)) :
    ∀ kw, scoredP M tsr ca cb kw = true →
      (!(getDS ca kw.1).isEmpty || !(getDS cb kw.1).isEmpty) = true := by
  intro kw h
  have := scoreKey_isSome_present (h : (scoreKey M tsr ca cb kw.1).isSome = true)
  rcases this with ⟨h1, h2⟩
  simp [h1, h2]

theorem filter_sum_mono (l : List (Str × ℚ)) (p q : Str × ℚ → Bool)
    (himp : ∀ x ∈ l, p x = true → q x = true) (hnn : ∀ x ∈ l, 0 ≤ x.2) :
    ((l.filter p).map Prod.snd).sum ≤ ((l.filter q).map Prod.snd).sum := by
  induction l with
  | nil => simp
  | cons x xs ih =>
    have ih2 := ih (fun y hy => himp y (by simp [hy])) (fun y hy => hnn y (by simp [hy]))
    have hx : (0:ℚ) ≤ x.2 := hnn x (by simp)
    by_cases hp : p x
    · have hq := himp x (by simp) hp
      rw [List.filter_cons_of_pos hp, List.filter_cons_of_pos hq]
      simp only [List.map_cons, List.sum_cons]
      exact add_le_add_left ih2 _
    · rw [List.filter_cons_of_neg hp]
      by_cases hq : q x
      · rw [List.filter_cons_of_pos hq]
        simp only [List.map_cons, List.sum_cons]
        exact le_trans ih2 (le_add_of_nonneg_left hx)
      · rw [List.filter_cons_of_neg hq]
        exact ih2

/-- The weight sum over union or scored labels, rewritten through the
weight table. -/
theorem keysum_eq_filtersum (p : Str × ℚ → Bool) :
    (((weights.filter p).map Prod.fst).map wLookup).sum =
      ((weights.filter p).map Prod.snd).sum := by
  rw [List.map_map]
  congr 1
  apply List.map_congr_left
  intro kw hkw
  exact wLookup_self kw (List.mem_filter.mp hkw).1

theorem union_weight_sum_eq (ca cb : List (Str × Str)) :
    union_weight_sum ca cb =
      ((weights.filter
        (fun kw => !(getDS ca kw.1).isEmpty || !(getDS cb kw.1).isEmpty)).map Prod.snd).sum := by
  unfold union_weight_sum unionKeys
  exact keysum_eq_filtersum _

theorem common_keys_weight_sum_eq (M : TextModel) (tsr : Str → Str → ℚ)
    (ca cb : List (Str × Str)) :
    common_keys_weight_sum M tsr ca cb =
      ((weights.filter (scoredP M tsr ca cb)).map Prod.snd).sum := by
  unfold common_keys_weight_sum
  rw [common_keys_eq]
  exact keysum_eq_filtersum _

theorem coverage_ratio_bounds (M : TextModel) (tsr : Str → Str → ℚ)
    (ca cb : List (Str × Str)) :
    0 ≤ coverage_ratio M tsr ca cb ∧ coverage_ratio M tsr ca cb ≤ 1 := by
  unfold coverage_ratio
  split_ifs with hpos
  · have hmono : common_keys_weight_sum M tsr ca cb ≤ union_weight_sum ca cb := by
      rw [common_keys_weight_sum_eq, union_weight_sum_eq]
      apply filter_sum_mono
      · intro kw _ h
        exact scored_imp_union M tsr ca cb kw h
      · intro kw hkw
        exact le_of_lt (weights_pos kw hkw)
    have hnn : 0 ≤ common_keys_weight_sum M tsr ca cb := by
      rw [common_keys_weight_sum_eq]
      apply List.sum_nonneg
      intro x hx
      rw [List.mem_map] at hx
      obtain ⟨kw, hkw, rfl⟩ := hx
      exact le_of_lt (weights_pos kw (List.mem_filter.mp hkw).1)
    exact ⟨div_nonneg hnn (le_of_lt hpos), (div_le_one hpos).mpr hmono⟩
  · norm_num

theorem component_score_bounds (M : TextModel) (tsr : Str → Str → ℚ)
    (ca cb : List (Str × Str))
    (hb : ∀ x y : Str, 0 ≤ tsr x y ∧ tsr x y ≤ 1) :
    0 ≤ component_score M tsr ca cb ∧ component_score M tsr ca cb ≤ 1 := by
  unfold component_score
  have h1 := normalized_similarity_bounds M tsr ca cb hb
  have h2 := coverage_ratio_bounds M tsr ca cb
  constructor
  · exact mul_nonneg h1.1 h2.1
  · calc normalized_similarity M tsr ca cb * coverage_ratio M tsr ca cb
        ≤ 1 * 1 := mul_le_mul h1.2 h2.2 h2.1 (by norm_num)
    _ = 1 := by norm_num

theorem w_fuzzy_bounds (M : TextModel) (aN bN : Str) :
    0 ≤ w_fuzzy M aN bN ∧ w_fuzzy M aN bN ≤ 15/100 := by
  unfold w_fuzzy
  split_ifs <;> norm_num

/-- C4: with token-set similarity in the unit interval and the fixed
non-negative weight table, the returned score lies in the unit
interval and is the 3-decimal rounding of the blended score; every
entry of the returned breakdown lies in the unit interval; the scored
labels are a subset of the union labels; and the coverage ratio is at
most 1. -/
theorem claim_C4_bounds (M : TextModel) (parse : Str → List (Str × Str))
    (tsr : Str → Str → ℚ)
    (hb : ∀ x y : Str, 0 ≤ tsr x y ∧ tsr x y ≤ 1) (a b : Option Str) :
    (0 ≤ (address_similarity M parse tsr a b).score ∧
      (address_similarity M parse tsr a b).score ≤ 1) ∧
    (address_similarity M parse tsr a b).score =
      round3 ((1 - w_fuzzy M (normalize M (a.getD [])) (normalize M (b.getD []))) *
        component_score M tsr (to_components (parse (normalize M (a.getD []))))
          (to_components (parse (normalize M (b.getD [])))) +
        w_fuzzy M (normalize M (a.getD [])) (normalize M (b.getD [])) *
          string_fuzzy tsr (normalize M (a.getD [])) (normalize M (b.getD []))) ∧
    (∀ p ∈ (address_similarity M parse tsr a b).breakdown, 0 ≤ p.2 ∧ p.2 ≤ 1) ∧
    (∀ k ∈ common_keys M tsr (to_components (parse (normalize M (a.getD []))))
        (to_components (parse (normalize M (b.getD [])))),
      k ∈ unionKeys (to_components (parse (normalize M (a.getD []))))
        (to_components (parse (normalize M (b.getD []))))) ∧
    coverage_ratio M tsr (to_components (parse (normalize M (a.getD []))))
      (to_components (parse (normalize M (b.getD [])))) ≤ 1 := by
  have hcs := component_score_bounds M tsr
    (to_components (parse (normalize M (a.getD []))))
    (to_components (parse (normalize M (b.getD [])))) hb
  have hff := string_fuzzy_bounds hb (normalize M (a.getD [])) (normalize M (b.getD []))
  have hwf := w_fuzzy_bounds M (normalize M (a.getD [])) (normalize M (b.getD []))
  have hwle : w_fuzzy M (normalize M (a.getD [])) (normalize M (b.getD [])) ≤ 1 := by
    linarith [hwf.2]
  have hfinal0 : 0 ≤ (1 - w_fuzzy M (normalize M (a.getD [])) (normalize M (b.getD []))) *
      component_score M tsr (to_components (parse (normalize M (a.getD []))))
        (to_components (parse (normalize M (b.getD [])))) +
      w_fuzzy M (normalize M (a.getD [])) (normalize M (b.getD [])) *
        string_fuzzy tsr (normalize M (a.getD [])) (normalize M (b.getD [])) :=
    add_nonneg (mul_nonneg (by linarith) hcs.1) (mul_nonneg hwf.1 hff.1)
  have hfinal1 : (1 - w_fuzzy M (normalize M (a.getD [])) (normalize M (b.getD []))) *
      component_score M tsr (to_components (parse (normalize M (a.getD []))))
        (to_components (parse (normalize M (b.getD [])))) +
      w_fuzzy M (normalize M (a.getD [])) (normalize M (b.getD [])) *
        string_fuzzy tsr (normalize M (a.getD [])) (normalize M (b.getD [])) ≤ 1 := by
    have h1 : (1 - w_fuzzy M (normalize M (a.getD [])) (normalize M (b.getD []))) *
        component_score M tsr (to_components (parse (normalize M (a.getD []))))
          (to_components (parse (normalize M (b.getD [])))) ≤
        (1 - w_fuzzy M (normalize M (a.getD [])) (normalize M (b.getD []))) * 1 :=
      mul_le_mul_of_nonneg_left hcs.2 (by linarith)
    have h2 : w_fuzzy M (normalize M (a.getD [])) (normalize M (b.getD [])) *
        string_fuzzy tsr (normalize M (a.getD [])) (normalize M (b.getD [])) ≤
        w_fuzzy M (normalize M (a.getD [])) (normalize M (b.getD [])) * 1 :=
      mul_le_mul_of_nonneg_left hff.2 hwf.1
    calc (1 - w_fuzzy M (normalize M (a.getD [])) (normalize M (b.getD []))) *
          component_score M tsr (to_components (parse (normalize M (a.getD []))))
            (to_components (parse (normalize M (b.getD [])))) +
        w_fuzzy M (normalize M (a.getD [])) (normalize M (b.getD [])) *
          string_fuzzy tsr (normalize M (a.getD [])) (normalize M (b.getD []))
        ≤ (1 - w_fuzzy M (normalize M (a.getD [])) (normalize M (b.getD []))) * 1 +
          w_fuzzy M (normalize M (a.getD [])) (normalize M (b.getD [])) * 1 :=
          add_le_add h1 h2
      _ = 1 := by ring
  refine ⟨⟨round3_nonneg hfinal0, round3_le_one hfinal1⟩, rfl, ?_, ?_, ?_⟩
  · intro p hp
    have hbd : (address_similarity M parse tsr a b).breakdown =
        breakdown0 M tsr (to_components (parse (normalize M (a.getD []))))
          (to_components (parse (normalize M (b.getD [])))) ++
        [(kComponentScore, round3 (component_score M tsr
            (to_components (parse (normalize M (a.getD []))))
            (to_components (parse (normalize M (b.getD [])))))),
         (kFullFuzzy, round3 (string_fuzzy tsr (normalize M (a.getD []))
            (normalize M (b.getD [])))),
         (kWFuzzy, round3 (w_fuzzy M (normalize M (a.getD []))
            (normalize M (b.getD []))))] := rfl
    rw [hbd, List.mem_append] at hp
    cases hp with
    | inl hp =>
      rw [breakdown0_eq, List.mem_map] at hp
      obtain ⟨kw, hkw, rfl⟩ := hp
      have hsc := (List.mem_filter.mp hkw).2
      have hsv := sVal_bounds hb hsc
      exact ⟨round3_nonneg hsv.1, round3_le_one hsv.2⟩
    | inr hp =>
      rcases List.mem_cons.mp hp with rfl | hp
      · exact ⟨round3_nonneg hcs.1, round3_le_one hcs.2⟩
      · rcases List.mem_cons.mp hp with rfl | hp
        · exact ⟨round3_nonneg hff.1, round3_le_one hff.2⟩
        · rcases List.mem_cons.mp hp with rfl | hp
          · exact ⟨round3_nonneg hwf.1, round3_le_one (by linarith [hwf.2])⟩
          · exact absurd hp (List.not_mem_nil p)
  · intro k hk
    rw [common_keys_eq, List.mem_map] at hk
    obtain ⟨kw, hkw, rfl⟩ := hk
    unfold unionKeys
    rw [List.mem_map]
    refine ⟨kw, ?_, rfl⟩
    rw [List.mem_filter]
    refine ⟨(List.mem_filter.mp hkw).1, ?_⟩
    exact scored_imp_union M tsr _ _ kw (List.mem_filter.mp hkw).2
  · exact (coverage_ratio_bounds M tsr _ _).2

/-- Witness for C4 at concrete inputs with a unit-interval similarity
stub. -/
theorem claim_C4_bounds_witness :
    0 ≤ (address_similarity asciiM parseMain tsr0
      (some (String.toList "1 A St")) (some (String.toList "2 B Ave"))).score ∧
    (address_similarity asciiM parseMain tsr0
      (some (String.toList "1 A St")) (some (String.toList "2 B Ave"))).score ≤ 1 :=
  (claim_C4_bounds asciiM parseMain tsr0
    (fun x y => by unfold tsr0; split_ifs <;> norm_num)
    (some (String.toList "1 A St")) (some (String.toList "2 B Ave"))).1

/-! ## Lemma layer: coverage (claim C5) -/

theorem lookupA_mem_isSome : ∀ kw ∈ weights, (lookupA weights kw.1).isSome = true := by
  intro kw h
  fin_cases h <;> rfl

theorem filter_map_fst (l : List (Str × ℚ)) (q : Str → Bool) :
    (l.filter (fun kw => q kw.1)).map Prod.fst = (l.map Prod.fst).filter q := by
  induction l with
  | nil => simp
  | cons x xs ih =>
    by_cases hx : q x.1 <;> simp [List.filter_cons, hx, ih]

/-- C5: the coverage penalty: scored labels are exactly the weighted
labels recorded in the returned breakdown; the coverage ratio is their
weight sum over the weight sum of the union labels (labels with a
non-empty raw value on either side, taken before the road-noise
guard), 0 when the union is empty; and the component score is the
normalized similarity scaled by the coverage ratio. -/
theorem claim_C5_coverage (M : TextModel) (parse : Str → List (Str × Str))
    (tsr : Str → Str → ℚ) (a b : Option Str) :
    (((address_similarity M parse tsr a b).breakdown.map Prod.fst).filter
        (fun k => (lookupA weights k).isSome) =
      common_keys M tsr (to_components (parse (normalize M (a.getD []))))
        (to_components (parse (normalize M (b.getD []))))) ∧
    coverage_ratio M tsr (to_components (parse (normalize M (a.getD []))))
        (to_components (parse (normalize M (b.getD [])))) =
      (if 0 < union_weight_sum (to_components (parse (normalize M (a.getD []))))
          (to_components (parse (normalize M (b.getD [])))) then
        (((((address_similarity M parse tsr a b).breakdown.map Prod.fst).filter
            (fun k => (lookupA weights k).isSome)).map wLookup).sum) /
          union_weight_sum (to_components (parse (normalize M (a.getD []))))
            (to_components (parse (normalize M (b.getD []))))
      else 0) ∧
    (unionKeys (to_components (parse (normalize M (a.getD []))))
        (to_components (parse (normalize M (b.getD [])))) = [] →
      coverage_ratio M tsr (to_components (parse (normalize M (a.getD []))))
        (to_components (parse (normalize M (b.getD [])))) = 0) ∧
    (unionKeys (to_components (parse (normalize M (a.getD []))))
        (to_components (parse (normalize M (b.getD [])))) =
      (weights.map Prod.fst).filter
        (fun k => !(getDS (to_components (parse (normalize M (a.getD [])))) k).isEmpty ||
          !(getDS (to_components (parse (normalize M (b.getD [])))) k).isEmpty)) ∧
    component_score M tsr (to_components (parse (normalize M (a.getD []))))
        (to_components (parse (normalize M (b.getD [])))) =
      normalized_similarity M tsr (to_components (parse (normalize M (a.getD []))))
          (to_components (parse (normalize M (b.getD [])))) *
        coverage_ratio M tsr (to_components (parse (normalize M (a.getD []))))
          (to_components (parse (normalize M (b.getD [])))) := by
  have hsplit : (address_similarity M parse tsr a b).breakdown.map Prod.fst =
      common_keys M tsr (to_components (parse (normalize M (a.getD []))))
        (to_components (parse (normalize M (b.getD [])))) ++
      [kComponentScore, kFullFuzzy, kWFuzzy] := by
    show (breakdown0 M tsr (to_components (parse (normalize M (a.getD []))))
        (to_components (parse (normalize M (b.getD [])))) ++
      [(kComponentScore, round3 (component_score M tsr
          (to_components (parse (normalize M (a.getD []))))
          (to_components (parse (normalize M (b.getD [])))))),
       (kFullFuzzy, round3 (string_fuzzy tsr (normalize M (a.getD []))
          (normalize M (b.getD [])))),
       (kWFuzzy, round3 (w_fuzzy M (normalize M (a.getD []))
          (normalize M (b.getD []))))]).map Prod.fst = _
    rw [List.map_append]
    rfl
  have hmain : ((address_similarity M parse tsr a b).breakdown.map Prod.fst).filter
      (fun k => (lookupA weights k).isSome) =
      common_keys M tsr (to_components (parse (normalize M (a.getD []))))
        (to_components (parse (normalize M (b.getD [])))) := by
    rw [hsplit, List.filter_append]
    have h1 : (common_keys M tsr (to_components (parse (normalize M (a.getD []))))
        (to_components (parse (normalize M (b.getD []))))).filter
        (fun k => (lookupA weights k).isSome) =
        common_keys M tsr (to_components (parse (normalize M (a.getD []))))
          (to_components (parse (normalize M (b.getD [])))) := by
      apply List.filter_eq_self.mpr
      intro k hk
      rw [common_keys_eq, List.mem_map] at hk
      obtain ⟨kw, hkw, rfl⟩ := hk
      exact lookupA_mem_isSome kw (List.mem_filter.mp hkw).1
    have h2 : ([kComponentScore, kFullFuzzy, kWFuzzy]).filter
        (fun k => (lookupA weights k).isSome) = [] := by decide
    rw [h1, h2, List.append_nil]
  refine ⟨hmain, ?_, ?_, ?_, rfl⟩
  · rw [hmain]
    rfl
  · intro hu
    unfold coverage_ratio union_weight_sum
    rw [hu]
    simp
  · unfold unionKeys
    exact filter_map_fst weights
      (fun k => !(getDS (to_components (parse (normalize M (a.getD [])))) k).isEmpty ||
        !(getDS (to_components (parse (normalize M (b.getD [])))) k).isEmpty)

/-- Witness for C5: with an empty parse on both sides the union labels
are empty and the coverage ratio is 0. -/
theorem claim_C5_coverage_witness :
    coverage_ratio asciiM tsr0
      (to_components (parse0 (normalize asciiM ((none : Option Str).getD []))))
      (to_components (parse0 (normalize asciiM ((none : Option Str).getD [])))) = 0 :=
  (claim_C5_coverage asciiM parse0 tsr0 none none).2.2.1 (by decide)

/-! ## Lemma layer: symmetry (claim C3) -/

theorem exactish_comm (a b : Str) : exactish a b = exactish b a := by
  unfold exactish
  by_cases hab : a = b
  · subst hab; rfl
  · by_cases ha : a = []
    · by_cases hb : b = []
      · exact absurd (ha.trans hb.symm) hab
      · rw [if_pos (Or.inl ha), if_pos (Or.inr ha)]
    · by_cases hb : b = []
      · rw [if_pos (Or.inr hb), if_pos (Or.inl hb)]
      · rw [if_neg (show ¬(a = [] ∨ b = []) by tauto),
          if_neg (show ¬(b = [] ∨ a = []) by tauto), if_neg hab,
          if_neg (fun h : b = a => hab h.symm)]

theorem fuzzyC_comm {tsr : Str → Str → ℚ} (hsym : ∀ x y : Str, tsr x y = tsr y x)
    (a b : Str) : fuzzyC tsr a b = fuzzyC tsr b a := by
  unfold fuzzyC
  by_cases ha : a = [] <;> by_cases hb : b = [] <;> simp [ha, hb, hsym a b]

theorem string_fuzzy_comm {tsr : Str → Str → ℚ} (hsym : ∀ x y : Str, tsr x y = tsr y x)
    (a b : Str) : string_fuzzy tsr a b = string_fuzzy tsr b a := by
  unfold string_fuzzy
  by_cases ha : a = [] <;> by_cases hb : b = [] <;> simp [ha, hb, hsym a b]

/-- The per-label scoring after the presence check is symmetric in the
two cleaned values. -/
theorem scoreTail_swap (M : TextModel) (tsr : Str → Str → ℚ) (k : Str)
    (hsym : ∀ x y : Str, tsr x y = tsr y x) (A B : Str) :
    (if k = kRoad ∧ (is_short_or_suspicious_road M A = true ∨
        is_short_or_suspicious_road M B = true) then (none : Option ℚ)
     else if k = kHouseNumber ∨ k = kPostcode then
       some (if exactish A B = 0 ∧ k = kHouseNumber then fuzzyC tsr A B else exactish A B)
     else some (fuzzyC tsr A B)) =
    (if k = kRoad ∧ (is_short_or_suspicious_road M B = true ∨
        is_short_or_suspicious_road M A = true) then none
     else if k = kHouseNumber ∨ k = kPostcode then
       some (if exactish B A = 0 ∧ k = kHouseNumber then fuzzyC tsr B A else exactish B A)
     else some (fuzzyC tsr B A)) := by
  by_cases hg : k = kRoad ∧ (is_short_or_suspicious_road M A = true ∨
      is_short_or_suspicious_road M B = true)
  · rw [if_pos hg, if_pos ⟨hg.1, Or.symm hg.2⟩]
  · rw [if_neg hg,
      if_neg (fun h : k = kRoad ∧ (is_short_or_suspicious_road M B = true ∨
          is_short_or_suspicious_road M A = true) => hg ⟨h.1, Or.symm h.2⟩)]
    by_cases hs : k = kHouseNumber ∨ k = kPostcode
    · rw [if_pos hs]
      rw [if_pos hs]
      congr 1
      by_cases hin : exactish A B = 0 ∧ k = kHouseNumber
      · rw [if_pos hin,
          if_pos (show exactish B A = 0 ∧ k = kHouseNumber from
            ⟨by rw [exactish_comm]; exact hin.1, hin.2⟩)]
        exact fuzzyC_comm hsym A B
      · rw [if_neg hin,
          if_neg (fun h : exactish B A = 0 ∧ k = kHouseNumber =>
            hin ⟨by rw [exactish_comm]; exact h.1, h.2⟩)]
        exact exactish_comm A B
    · rw [if_neg hs]
      rw [if_neg hs]
      rw [fuzzyC_comm hsym A B]

theorem scoreKey_swap (M : TextModel) (tsr : Str → Str → ℚ)
    (ca cb : List (Str × Str)) (hsym : ∀ x y : Str, tsr x y = tsr y x) (k : Str) :
    scoreKey M tsr ca cb k = scoreKey M tsr cb ca k := by
  show (if trim M.isSpace (getDS ca k) = [] ∨ trim M.isSpace (getDS cb k) = [] then none
    else if k = kRoad ∧ (is_short_or_suspicious_road M
          (if k = kHouseNumber then clean_house_number M (trim M.isSpace (getDS ca k))
            else trim M.isSpace (getDS ca k)) = true ∨
        is_short_or_suspicious_road M
          (if k = kHouseNumber then clean_house_number M (trim M.isSpace (getDS cb k))
            else trim M.isSpace (getDS cb k)) = true) then none
    else if k = kHouseNumber ∨ k = kPostcode then
      some (if exactish
          (if k = kHouseNumber then clean_house_number M (trim M.isSpace (getDS ca k))
            else trim M.isSpace (getDS ca k))
          (if k = kHouseNumber then clean_house_number M (trim M.isSpace (getDS cb k))
            else trim M.isSpace (getDS cb k)) = 0 ∧ k = kHouseNumber then
        fuzzyC tsr
          (if k = kHouseNumber then clean_house_number M (trim M.isSpace (getDS ca k))
            else trim M.isSpace (getDS ca k))
          (if k = kHouseNumber then clean_house_number M (trim M.isSpace (getDS cb k))
            else trim M.isSpace (getDS cb k))
      else exactish
          (if k = kHouseNumber then clean_house_number M (trim M.isSpace (getDS ca k))
            else trim M.isSpace (getDS ca k))
          (if k = kHouseNumber then clean_house_number M (trim M.isSpace (getDS cb k))
            else trim M.isSpace (getDS cb k)))
    else some (fuzzyC tsr
        (if k = kHouseNumber then clean_house_number M (trim M.isSpace (getDS ca k))
          else trim M.isSpace (getDS ca k))
        (if k = kHouseNumber then clean_house_number M (trim M.isSpace (getDS cb k))
          else trim M.isSpace (getDS cb k)))) =
    (if trim M.isSpace (getDS cb k) = [] ∨ trim M.isSpace (getDS ca k) = [] then none
    else if k = kRoad ∧ (is_short_or_suspicious_road M
          (if k = kHouseNumber then clean_house_number M (trim M.isSpace (getDS cb k))
            else trim M.isSpace (getDS cb k)) = true ∨
        is_short_or_suspicious_road M
          (if k = kHouseNumber then clean_house_number M (trim M.isSpace (getDS ca k))
            else trim M.isSpace (getDS ca k)) = true) then none
    else if k = kHouseNumber ∨ k = kPostcode then
      some (if exactish
          (if k = kHouseNumber then clean_house_number M (trim M.isSpace (getDS cb k))
            else trim M.isSpace (getDS cb k))
          (if k = kHouseNumber then clean_house_number M (trim M.isSpace (getDS ca k))
            else trim M.isSpace (getDS ca k)) = 0 ∧ k = kHouseNumber then
        fuzzyC tsr
          (if k = kHouseNumber then clean_house_number M (trim M.isSpace (getDS cb k))
            else trim M.isSpace (getDS cb k))
          (if k = kHouseNumber then clean_house_number M (trim M.isSpace (getDS ca k))
            else trim M.isSpace (getDS ca k))
      else exactish
          (if k = kHouseNumber then clean_house_number M (trim M.isSpace (getDS cb k))
            else trim M.isSpace (getDS cb k))
          (if k = kHouseNumber then clean_house_number M (trim M.isSpace (getDS ca k))
            else trim M.isSpace (getDS ca k)))
    else some (fuzzyC tsr
        (if k = kHouseNumber then clean_house_number M (trim M.isSpace (getDS cb k))
          else trim M.isSpace (getDS cb k))
        (if k = kHouseNumber then clean_house_number M (trim M.isSpace (getDS ca k))
          else trim M.isSpace (getDS ca k))))
  by_cases h1 : trim M.isSpace (getDS ca k) = [] ∨ trim M.isSpace (getDS cb k) = []
  · rw [if_pos h1, if_pos (Or.symm h1)]
  · rw [if_neg h1, if_neg (fun h => h1 (Or.symm h))]
    exact scoreTail_swap M tsr k hsym _ _

theorem simParts_swap (M : TextModel) (tsr : Str → Str → ℚ)
    (ca cb : List (Str × Str)) (hsym : ∀ x y : Str, tsr x y = tsr y x) :
    simParts M tsr ca cb = simParts M tsr cb ca := by
  unfold simParts
  congr 1
  funext acc kw
  unfold loopStep
  rw [scoreKey_swap M tsr ca cb hsym]

theorem unionKeys_swap (ca cb : List (Str × Str)) :
    unionKeys ca cb = unionKeys cb ca := by
  unfold unionKeys
  congr 1
  apply List.filter_congr
  intro kw _
  exact Bool.or_comm _ _

theorem component_score_swap (M : TextModel) (tsr : Str → Str → ℚ)
    (ca cb : List (Str × Str)) (hsym : ∀ x y : Str, tsr x y = tsr y x) :
    component_score M tsr ca cb = component_score M tsr cb ca := by
  unfold component_score normalized_similarity coverage_ratio union_weight_sum
    common_keys_weight_sum common_keys breakdown0 weighted_sum common_weight_sum
  rw [simParts_swap M tsr ca cb hsym, unionKeys_swap ca cb]

/-- C3: with a symmetric token-set similarity, scoring is symmetric in
its two inputs. -/
theorem claim_C3_symmetry (M : TextModel) (parse : Str → List (Str × Str))
    (tsr : Str → Str → ℚ) (hsym : ∀ x y : Str, tsr x y = tsr y x) (a b : Option Str) :
    (address_similarity M parse tsr a b).score =
      (address_similarity M parse tsr b a).score := by
  show round3 ((1 - w_fuzzy M (normalize M (a.getD [])) (normalize M (b.getD []))) *
      component_score M tsr (to_components (parse (normalize M (a.getD []))))
        (to_components (parse (normalize M (b.getD [])))) +
      w_fuzzy M (normalize M (a.getD [])) (normalize M (b.getD [])) *
        string_fuzzy tsr (normalize M (a.getD [])) (normalize M (b.getD []))) =
    round3 ((1 - w_fuzzy M (normalize M (b.getD [])) (normalize M (a.getD []))) *
      component_score M tsr (to_components (parse (normalize M (b.getD []))))
        (to_components (parse (normalize M (a.getD [])))) +
      w_fuzzy M (normalize M (b.getD [])) (normalize M (a.getD [])) *
        string_fuzzy tsr (normalize M (b.getD [])) (normalize M (a.getD [])))
  have hwf : w_fuzzy M (normalize M (a.getD [])) (normalize M (b.getD [])) =
      w_fuzzy M (normalize M (b.getD [])) (normalize M (a.getD [])) := by
    unfold w_fuzzy
    rw [min_comm (info_level M (normalize M (a.getD []))) (info_level M (normalize M (b.getD [])))]
  rw [hwf,
    component_score_swap M tsr (to_components (parse (normalize M (a.getD []))))
      (to_components (parse (normalize M (b.getD [])))) hsym,
    string_fuzzy_comm hsym (normalize M (a.getD [])) (normalize M (b.getD []))]

/-- Witness for C3 at concrete inputs with the symmetric similarity
stub. -/
theorem claim_C3_symmetry_witness :
    (address_similarity asciiM parseMain tsr0
      (some (String.toList "1 A St")) (some (String.toList "2 B Ave"))).score =
    (address_similarity asciiM parseMain tsr0
      (some (String.toList "2 B Ave")) (some (String.toList "1 A St"))).score :=
  claim_C3_symmetry asciiM parseMain tsr0
    (fun x y => by
      unfold tsr0
      by_cases h : x = y
      · rw [if_pos h, if_pos h.symm]
      · rw [if_neg h, if_neg (fun he => h he.symm)])
    (some (String.toList "1 A St")) (some (String.toList "2 B Ave"))

/-! ## Lemma layer: information level (claim C6) -/

theorem collapse_nil (sp : Char → Bool) : collapse sp [] = [] := rfl

theorem splitWSGo_ne_nil {sp : Char → Bool} :
    ∀ (v cur : Str), cur ≠ [] → splitWSGo sp cur v ≠ [] := by
  intro v
  induction v with
  | nil =>
    intro cur hc
    unfold splitWSGo
    rw [if_neg hc]
    simp
  | cons c cs ih =>
    intro cur hc
    unfold splitWSGo
    by_cases hsp : sp c
    · rw [if_pos hsp, if_neg hc]
      simp
    · rw [if_neg hsp]
      exact ih (c :: cur) (by simp)

theorem splitWS_pos_of_trim {M : TextModel} (h1 : M.isSpace ' ' = true) {X : Str}
    (hne : trim M.isSpace X ≠ []) :
    1 ≤ (splitWS (fun c => c == ' ') (trim M.isSpace X)).length := by
  cases hcase : trim M.isSpace X with
  | nil => exact absurd hcase hne
  | cons c cs =>
    have hc : M.isSpace c = false := head?_trim_false (by rw [hcase]; rfl)
    have hcs : (c == ' ') = false := by
      by_cases h : c = ' '
      · rw [h] at hc
        rw [hc] at h1
        exact Bool.noConfusion h1
      · simp [h]
    show 1 ≤ (splitWSGo (fun c => c == ' ') [] (c :: cs)).length
    unfold splitWSGo
    rw [if_neg (by simp [hcs])]
    have := @splitWSGo_ne_nil (fun c => c == ' ') cs [c] (by simp)
    have hlen : 0 < (splitWSGo (fun c => c == ' ') [c] cs).length :=
      List.length_pos.mpr this
    omega

/-- The information level agrees with the case table stated by the
spec. -/
theorem info_level_eq_spec (M : TextModel) (h1 : M.isSpace ' ' = true) (s : Str) :
    info_level M s = specInfoLevel M s := by
  unfold info_level specInfoLevel
  by_cases h0 : trim M.isSpace s = []
  · rw [if_pos h0, h0]
    simp [collapse_nil, trim_nil]
  · rw [if_neg h0]
    by_cases h2 : trim M.isSpace (collapse M.isSpace ((trim M.isSpace s).map
        (fun c => if M.isWord c || M.isSpace c then c else ' '))) = []
    · rw [if_pos h2, if_pos h2]
    · rw [if_neg h2, if_neg h2]
      have htoks := splitWS_pos_of_trim h1 h2
      by_cases hd : (trim M.isSpace (collapse M.isSpace ((trim M.isSpace s).map
          (fun c => if M.isWord c || M.isSpace c then c else ' ')))).any M.isDigitC
      · rw [if_pos hd, if_neg (fun hc => hc.2 hd), if_pos (Or.inl hd)]
      · rw [if_neg hd]
        by_cases ht1 : (splitWS (fun c => c == ' ')
            (trim M.isSpace (collapse M.isSpace ((trim M.isSpace s).map
              (fun c => if M.isWord c || M.isSpace c then c else ' '))))).length ≤ 1
        · have heq : (splitWS (fun c => c == ' ')
              (trim M.isSpace (collapse M.isSpace ((trim M.isSpace s).map
                (fun c => if M.isWord c || M.isSpace c then c else ' '))))).length = 1 :=
            le_antisymm ht1 htoks
          rw [if_pos ht1, if_pos ⟨heq, hd⟩]
        · by_cases ht3 : (splitWS (fun c => c == ' ')
              (trim M.isSpace (collapse M.isSpace ((trim M.isSpace s).map
                (fun c => if M.isWord c || M.isSpace c then c else ' '))))).length ≤ 3
          · rw [if_neg ht1, if_pos ht3, if_neg (fun hc => ht1 (le_of_eq hc.1)),
              if_pos (Or.inr ⟨by omega, ht3⟩)]
          · rw [if_neg ht1, if_neg ht3, if_neg (fun hc => ht1 (le_of_eq hc.1)),
              if_neg (fun hc => ?_)]
            rcases hc with hc | hc
            · exact hd hc
            · exact ht3 hc.2

/-- C6: the final score is the 3-decimal rounding of the convex blend
with weight wFuzzy, wFuzzy is 0.05 exactly when the smaller
information level is at most 1 (0.15 otherwise), and the information
level follows the spec case table with values in 0..3. -/
theorem claim_C6_fuzzy_blend (M : TextModel) (h1 : M.isSpace ' ' = true) :
    (∀ (parse : Str → List (Str × Str)) (tsr : Str → Str → ℚ) (a b : Option Str),
      (address_similarity M parse tsr a b).score =
        round3 ((1 - w_fuzzy M (normalize M (a.getD [])) (normalize M (b.getD []))) *
          component_score M tsr (to_components (parse (normalize M (a.getD []))))
            (to_components (parse (normalize M (b.getD [])))) +
          w_fuzzy M (normalize M (a.getD [])) (normalize M (b.getD [])) *
            string_fuzzy tsr (normalize M (a.getD [])) (normalize M (b.getD []))) ∧
      w_fuzzy M (normalize M (a.getD [])) (normalize M (b.getD [])) =
        (if min (info_level M (normalize M (a.getD [])))
            (info_level M (normalize M (b.getD []))) ≤ 1 then 5/100 else 15/100)) ∧
    (∀ s : Str, info_level M s = specInfoLevel M s ∧ info_level M s ≤ 3) := by
  constructor
  · intro parse tsr a b
    exact ⟨rfl, rfl⟩
  · intro s
    refine ⟨info_level_eq_spec M h1 s, ?_⟩
    unfold info_level
    simp only []
    split_ifs <;> omega

/-- Witness for C6: the information-level case table at a concrete
string under the ASCII model. -/
theorem claim_C6_fuzzy_blend_witness :
    info_level asciiM (String.toList "12 foo") = specInfoLevel asciiM (String.toList "12 foo") ∧
    info_level asciiM (String.toList "12 foo") ≤ 3 :=
  (claim_C6_fuzzy_blend asciiM rfl).2 (String.toList "12 foo")

/-! ## Lemma layer: the normalizer pipeline (claim C7)

The comma respacing followed by whitespace collapsing and trimming is
shown to compute exactly the rendering of the comma/word token stream
of the input, from which idempotence follows. -/

theorem respaceGo_nil (sp : Char → Bool) (ac : Bool) (pending : Str) :
    respaceGo sp ac pending [] = pending := rfl

theorem respaceGo_cons_space_false {sp : Char → Bool} {c : Char} (h : sp c = true)
    (pending cs : Str) :
    respaceGo sp false pending (c :: cs) = respaceGo sp false (pending ++ [c]) cs := by
  simp [respaceGo, h]

theorem respaceGo_cons_space_true {sp : Char → Bool} {c : Char} (h : sp c = true)
    (pending cs : Str) :
    respaceGo sp true pending (c :: cs) = respaceGo sp true pending cs := by
  simp [respaceGo, h]

theorem respaceGo_cons_comma {sp : Char → Bool} (h2 : sp ',' = false)
    (ac : Bool) (pending cs : Str) :
    respaceGo sp ac pending (',' :: cs) = ',' :: ' ' :: respaceGo sp true [] cs := by
  cases ac <;> simp [respaceGo, h2]

theorem respaceGo_cons_word {sp : Char → Bool} {c : Char} (hc : sp c = false)
    (hcm : c ≠ ',') (ac : Bool) (pending cs : Str) :
    respaceGo sp ac pending (c :: cs) = pending ++ c :: respaceGo sp false [] cs := by
  cases ac <;> simp [respaceGo, hc, hcm]

theorem respaceGo_spaces {sp : Char → Bool} :
    ∀ (run : Str), (∀ x ∈ run, sp x = true) → ∀ (pending v : Str),
      respaceGo sp false pending (run ++ v) = respaceGo sp false (pending ++ run) v := by
  intro run
  induction run with
  | nil => intro _ pending v; rw [List.nil_append, List.append_nil]
  | cons x rs ih =>
    intro hall pending v
    have hx : sp x = true := hall x (by simp)
    show respaceGo sp false pending (x :: (rs ++ v)) = _
    rw [respaceGo_cons_space_false hx]
    rw [ih (fun y hy => hall y (by simp [hy])) (pending ++ [x]) v]
    rw [List.append_assoc]
    rfl

theorem respaceGo_true_eq {sp : Char → Bool} :
    ∀ v : Str, respaceGo sp true [] v = respaceGo sp false [] (v.dropWhile sp) := by
  intro v
  induction v with
  | nil => rfl
  | cons x xs ih =>
    by_cases hx : sp x
    · rw [respaceGo_cons_space_true hx, List.dropWhile_cons_of_pos hx]
      exact ih
    · rw [List.dropWhile_cons_of_neg hx]
      have hxf : sp x = false := Bool.eq_false_iff.mpr hx
      by_cases hcm : x = ','
      · subst hcm
        rw [respaceGo_cons_comma hxf true [] xs, respaceGo_cons_comma hxf false [] xs]
      · rw [respaceGo_cons_word hxf hcm true [] xs, respaceGo_cons_word hxf hcm false [] xs]

theorem respace_cons_word {sp : Char → Bool} {c : Char} (cs : Str)
    (hc : sp c = false) (hcm : c ≠ ',') :
    respace sp (c :: cs) = c :: respace sp cs := by
  unfold respace
  rw [respaceGo_cons_word hc hcm]
  rfl

theorem respace_word_prefix {sp : Char → Bool} :
    ∀ (w : Str), (∀ x ∈ w, sp x = false ∧ x ≠ ',') → ∀ (v : Str),
      respace sp (w ++ v) = w ++ respace sp v := by
  intro w
  induction w with
  | nil => intro _ v; rfl
  | cons x ws ih =>
    intro hall v
    have hx := hall x (by simp)
    show respace sp (x :: (ws ++ v)) = _
    rw [respace_cons_word _ hx.1 hx.2, ih (fun y hy => hall y (by simp [hy])) v]
    rfl

theorem respace_comma {sp : Char → Bool} (h2 : sp ',' = false) (cs : Str) :
    respace sp (',' :: cs) = ',' :: ' ' :: respace sp (cs.dropWhile sp) := by
  unfold respace
  rw [respaceGo_cons_comma h2, respaceGo_true_eq]

theorem respace_allspace {sp : Char → Bool} {u : Str} (h : ∀ x ∈ u, sp x = true) :
    respace sp u = u := by
  have h0 := respaceGo_spaces u h [] []
  rw [List.append_nil] at h0
  unfold respace
  rw [h0]
  rfl

theorem respace_head {sp : Char → Bool} {c : Char} (cs : Str) (h2 : sp ',' = false)
    (hc : sp c = false) :
    ∃ y ys, respace sp (c :: cs) = y :: ys ∧ sp y = false := by
  by_cases hcm : c = ','
  · subst hcm
    rw [respace_comma h2 cs]
    exact ⟨',', _, rfl, h2⟩
  · rw [respace_cons_word cs hc hcm]
    exact ⟨c, _, rfl, hc⟩

theorem collapseGo_cons_space_false {sp : Char → Bool} {c : Char} (h : sp c = true)
    (cs : Str) : collapseGo sp false (c :: cs) = ' ' :: collapseGo sp true cs := by
  simp [collapseGo, h]

theorem collapseGo_cons_space_true {sp : Char → Bool} {c : Char} (h : sp c = true)
    (cs : Str) : collapseGo sp true (c :: cs) = collapseGo sp true cs := by
  simp [collapseGo, h]

theorem collapseGo_cons_nonspace {sp : Char → Bool} {c : Char} (h : sp c = false)
    (b : Bool) (cs : Str) : collapseGo sp b (c :: cs) = c :: collapseGo sp false cs := by
  cases b <;> simp [collapseGo, h]

theorem collapseGo_true_eq {sp : Char → Bool} :
    ∀ v : Str, collapseGo sp true v = collapseGo sp false (v.dropWhile sp) := by
  intro v
  induction v with
  | nil => rfl
  | cons x xs ih =>
    by_cases hx : sp x
    · rw [collapseGo_cons_space_true hx, List.dropWhile_cons_of_pos hx]
      exact ih
    · rw [List.dropWhile_cons_of_neg hx]
      have hxf : sp x = false := Bool.eq_false_iff.mpr hx
      rw [collapseGo_cons_nonspace hxf true xs, collapseGo_cons_nonspace hxf false xs]

theorem collapse_cons_nonspace {sp : Char → Bool} {c : Char} (v : Str)
    (hc : sp c = false) : collapse sp (c :: v) = c :: collapse sp v :=
  collapseGo_cons_nonspace hc false v

theorem collapse_word_prefix {sp : Char → Bool} :
    ∀ (w : Str), (∀ x ∈ w, sp x = false) → ∀ (v : Str),
      collapse sp (w ++ v) = w ++ collapse sp v := by
  intro w
  induction w with
  | nil => intro _ v; rfl
  | cons x ws ih =>
    intro hall v
    show collapse sp (x :: (ws ++ v)) = _
    rw [collapse_cons_nonspace _ (hall x (by simp)),
      ih (fun y hy => hall y (by simp [hy])) v]
    rfl

theorem collapse_cons_space {sp : Char → Bool} {c : Char} (v : Str)
    (hc : sp c = true) : collapse sp (c :: v) = ' ' :: collapse sp (v.dropWhile sp) := by
  unfold collapse
  rw [collapseGo_cons_space_false hc, collapseGo_true_eq]

theorem collapse_spacerun {sp : Char → Bool} {run : Str} (hne : run ≠ [])
    (hall : ∀ x ∈ run, sp x = true) (v : Str) :
    collapse sp (run ++ v) = ' ' :: collapse sp (v.dropWhile sp) := by
  cases run with
  | nil => exact absurd rfl hne
  | cons x rs =>
    show collapse sp (x :: (rs ++ v)) = _
    rw [collapse_cons_space _ (hall x (by simp))]
    rw [List.dropWhile_append_of_pos (fun y hy => hall y (by simp [hy]))]

theorem collapse_allspace {sp : Char → Bool} {run : Str} (hne : run ≠ [])
    (hall : ∀ x ∈ run, sp x = true) : collapse sp run = [' '] := by
  have := collapse_spacerun hne hall []
  rw [List.append_nil] at this
  rw [this]
  rfl

theorem flushTok_nil : flushTok [] = [] := rfl

theorem tokensGo_cons_space {sp : Char → Bool} {c : Char} (h : sp c = true)
    (cur cs : Str) :
    tokensGo sp cur (c :: cs) = flushTok cur ++ tokensGo sp [] cs := by
  simp [tokensGo, h]

theorem tokensGo_cons_comma {sp : Char → Bool} (h2 : sp ',' = false) (cur cs : Str) :
    tokensGo sp cur (',' :: cs) = flushTok cur ++ Tok.comma :: tokensGo sp [] cs := by
  simp [tokensGo, h2]

theorem tokensGo_cons_word {sp : Char → Bool} {c : Char} (hc : sp c = false)
    (hcm : c ≠ ',') (cur cs : Str) :
    tokensGo sp cur (c :: cs) = tokensGo sp (c :: cur) cs := by
  simp [tokensGo, hc, hcm]

theorem tokens_nil (sp : Char → Bool) : tokens sp [] = [] := rfl

theorem tokens_cons_space {sp : Char → Bool} {c : Char} (cs : Str) (hc : sp c = true) :
    tokens sp (c :: cs) = tokens sp cs := by
  unfold tokens
  rw [tokensGo_cons_space hc, flushTok_nil, List.nil_append]

theorem tokens_dropWhile {sp : Char → Bool} :
    ∀ u : Str, tokens sp (u.dropWhile sp) = tokens sp u := by
  intro u
  induction u with
  | nil => rfl
  | cons c cs ih =>
    by_cases hc : sp c
    · rw [List.dropWhile_cons_of_pos hc, ih, tokens_cons_space cs hc]
    · rw [List.dropWhile_cons_of_neg hc]

theorem tokens_cons_comma {sp : Char → Bool} (h2 : sp ',' = false) (cs : Str) :
    tokens sp (',' :: cs) = Tok.comma :: tokens sp cs := by
  unfold tokens
  rw [tokensGo_cons_comma h2, flushTok_nil, List.nil_append]

theorem tokensGo_word_accum {sp : Char → Bool} :
    ∀ (w : Str), (∀ x ∈ w, sp x = false ∧ x ≠ ',') → ∀ (cur rest : Str),
      tokensGo sp cur (w ++ rest) = tokensGo sp (w.reverse ++ cur) rest := by
  intro w
  induction w with
  | nil => intro _ cur rest; rfl
  | cons x ws ih =>
    intro hall cur rest
    have hx := hall x (by simp)
    show tokensGo sp cur (x :: (ws ++ rest)) = _
    rw [tokensGo_cons_word hx.1 hx.2]
    rw [ih (fun y hy => hall y (by simp [hy])) (x :: cur) rest]
    rw [List.reverse_cons, List.append_assoc]
    rfl

theorem tokens_word_prefix {sp : Char → Bool} {w : Str} (hne : w ≠ [])
    (hall : ∀ x ∈ w, sp x = false ∧ x ≠ ',') (rest : Str)
    (hrest : rest = [] ∨ ∃ c cs, rest = c :: cs ∧ (sp c = true ∨ c = ',')) :
    tokens sp (w ++ rest) = Tok.word w :: tokens sp rest := by
  have hacc := tokensGo_word_accum w hall [] rest
  rw [List.append_nil] at hacc
  unfold tokens
  rw [hacc]
  have hflush : flushTok w.reverse = [Tok.word w] := by
    unfold flushTok
    rw [if_neg (by simp [hne]), List.reverse_reverse]
  rcases hrest with rfl | ⟨c, cs, rfl, hc⟩
  · show tokensGo sp w.reverse [] = _
    show flushTok w.reverse = _
    rw [hflush]
    rfl
  · rcases hc with hc | hc
    · show tokensGo sp w.reverse (c :: cs) = _
      rw [tokensGo_cons_space hc, hflush]
      rw [tokensGo_cons_space hc ([] : Str) cs, flushTok_nil, List.nil_append]
      rfl
    · subst hc
      show tokensGo sp w.reverse (',' :: cs) = _
      by_cases h2 : sp ','
      · rw [tokensGo_cons_space h2, hflush]
        rw [tokensGo_cons_space h2 ([] : Str) cs, flushTok_nil, List.nil_append]
        rfl
      · have h2f : sp ',' = false := Bool.eq_false_iff.mpr h2
        rw [tokensGo_cons_comma h2f, hflush]
        rw [tokensGo_cons_comma h2f ([] : Str) cs, flushTok_nil, List.nil_append]
        rfl

theorem tokensGo_ne_nil {sp : Char → Bool} :
    ∀ (v cur : Str), cur ≠ [] → tokensGo sp cur v ≠ [] := by
  intro v
  induction v with
  | nil =>
    intro cur hc
    show flushTok cur ≠ []
    unfold flushTok
    rw [if_neg hc]
    simp
  | cons c cs ih =>
    intro cur hc
    by_cases hsp : sp c
    · rw [tokensGo_cons_space hsp]
      unfold flushTok
      rw [if_neg hc]
      simp
    · have hspf : sp c = false := Bool.eq_false_iff.mpr hsp
      by_cases hcm : c = ','
      · subst hcm
        rw [tokensGo_cons_comma hspf]
        unfold flushTok
        rw [if_neg hc]
        simp
      · rw [tokensGo_cons_word hspf hcm]
        exact ih (c :: cur) (by simp)

theorem tokens_ne_nil {sp : Char → Bool} {c : Char} (cs : Str) (hc : sp c = false) :
    tokens sp (c :: cs) ≠ [] := by
  unfold tokens
  by_cases hcm : c = ','
  · subst hcm
    rw [tokensGo_cons_comma hc]
    simp [flushTok]
  · rw [tokensGo_cons_word hc hcm]
    exact tokensGo_ne_nil cs [c] (by simp)

theorem tokens_allspace {sp : Char → Bool} :
    ∀ {u : Str}, (∀ x ∈ u, sp x = true) → tokens sp u = [] := by
  intro u
  induction u with
  | nil => intro _; rfl
  | cons c cs ih =>
    intro h
    rw [tokens_cons_space cs (h c (by simp))]
    exact ih (fun y hy => h y (by simp [hy]))

theorem tokensGo_wf {sp : Char → Bool} :
    ∀ (v cur : Str), (∀ x ∈ cur, sp x = false ∧ x ≠ ',') →
      ∀ t ∈ tokensGo sp cur v, wfTok sp t := by
  intro v
  induction v with
  | nil =>
    intro cur hcur t ht
    show wfTok sp t
    unfold tokensGo flushTok at ht
    by_cases hc : cur = []
    · rw [if_pos hc] at ht
      exact absurd ht (List.not_mem_nil t)
    · rw [if_neg hc] at ht
      simp at ht
      rw [ht]
      exact ⟨by simp [hc], fun x hx => hcur x (List.mem_reverse.mp hx)⟩
  | cons c cs ih =>
    intro cur hcur t ht
    have hflush : ∀ t ∈ flushTok cur, wfTok sp t := by
      intro t ht
      unfold flushTok at ht
      by_cases hc : cur = []
      · rw [if_pos hc] at ht
        exact absurd ht (List.not_mem_nil t)
      · rw [if_neg hc] at ht
        simp at ht
        rw [ht]
        exact ⟨by simp [hc], fun x hx => hcur x (List.mem_reverse.mp hx)⟩
    by_cases hsp : sp c
    · rw [tokensGo_cons_space hsp] at ht
      rcases List.mem_append.mp ht with h | h
      · exact hflush t h
      · exact ih [] (by simp) t h
    · have hspf : sp c = false := Bool.eq_false_iff.mpr hsp
      by_cases hcm : c = ','
      · subst hcm
        rw [tokensGo_cons_comma hspf] at ht
        rcases List.mem_append.mp ht with h | h
        · exact hflush t h
        · rcases List.mem_cons.mp h with rfl | h
          · exact trivial
          · exact ih [] (by simp) t h
      · rw [tokensGo_cons_word hspf hcm] at ht
        exact ih (c :: cur) (by
          intro x hx
          rcases List.mem_cons.mp hx with rfl | hx
          · exact ⟨hspf, hcm⟩
          · exact hcur x hx) t ht

theorem tokens_wf {sp : Char → Bool} (u : Str) : ∀ t ∈ tokens sp u, wfTok sp t :=
  tokensGo_wf u [] (by simp)

theorem render_comma_cons : ∀ {ts : List Tok}, ts ≠ [] →
    render (Tok.comma :: ts) = ',' :: ' ' :: render ts := by
  intro ts h
  cases ts with
  | nil => exact absurd rfl h
  | cons t ts2 => rfl

theorem render_head_comma : ∀ (ts : List Tok), ∃ r, render (Tok.comma :: ts) = ',' :: r := by
  intro ts
  cases ts with
  | nil => exact ⟨[], rfl⟩
  | cons t ts2 => exact ⟨' ' :: render (t :: ts2), rfl⟩

theorem render_word_comma (w : Str) (ts : List Tok) :
    render (Tok.word w :: Tok.comma :: ts) = w ++ render (Tok.comma :: ts) := rfl

theorem render_word_word (w v : Str) (ts : List Tok) :
    render (Tok.word w :: Tok.word v :: ts) = w ++ ' ' :: render (Tok.word v :: ts) := rfl

theorem render_word_one (w : Str) : render [Tok.word w] = w := rfl

theorem tokensGo_head_word {sp : Char → Bool} :
    ∀ (v cur : Str), cur ≠ [] → ∃ w ts, tokensGo sp cur v = Tok.word w :: ts := by
  intro v
  induction v with
  | nil =>
    intro cur hc
    refine ⟨cur.reverse, [], ?_⟩
    show flushTok cur = _
    unfold flushTok
    rw [if_neg hc]
  | cons y ys ih =>
    intro cur hc
    by_cases hsp : sp y
    · rw [tokensGo_cons_space hsp]
      refine ⟨cur.reverse, tokensGo sp [] ys, ?_⟩
      unfold flushTok
      rw [if_neg hc]
      rfl
    · have hspf : sp y = false := Bool.eq_false_iff.mpr hsp
      by_cases hcm : y = ','
      · subst hcm
        rw [tokensGo_cons_comma hspf]
        refine ⟨cur.reverse, Tok.comma :: tokensGo sp [] ys, ?_⟩
        unfold flushTok
        rw [if_neg hc]
        rfl
      · rw [tokensGo_cons_word hspf hcm]
        exact ih (y :: cur) (by simp)

theorem tokens_head_word {sp : Char → Bool} {x : Char} (d2 : Str)
    (hx : sp x = false) (hxm : x ≠ ',') :
    ∃ w ts, tokens sp (x :: d2) = Tok.word w :: ts := by
  unfold tokens
  rw [tokensGo_cons_word hx hxm]
  exact tokensGo_head_word d2 [x] (by simp)

/-- Collapsing the respaced string is the rendering of the token
stream, up to a single optional space at either end; the side
conditions pin down the left pad. -/
theorem crR (sp : Char → Bool) (h1 : sp ' ' = true) (h2 : sp ',' = false) :
    ∀ u : Str, ∃ pl pr : Str,
      (pl = [] ∨ pl = [' ']) ∧ (pr = [] ∨ pr = [' ']) ∧
      collapse sp (respace sp u) = pl ++ render (tokens sp u) ++ pr ∧
      (∀ c cs, u = c :: cs → sp c = false → pl = []) ∧
      (∀ ts', tokens sp u = Tok.comma :: ts' → pl = []) ∧
      (tokens sp u = [] → pr = []) ∧
      (∀ c cs, u = c :: cs → sp c = true →
        ∀ w' ts', tokens sp u = Tok.word w' :: ts' → pl = [' ']) := by
  intro u
  match u with
  | [] =>
    refine ⟨[], [], Or.inl rfl, Or.inl rfl, rfl, ?_, ?_, fun _ => rfl, ?_⟩
    · intro c cs h
      exact List.noConfusion h
    · intro ts h
      exact List.noConfusion h
    · intro c cs h
      exact List.noConfusion h
  | c :: cs =>
    by_cases hsp : sp c = true
    · -- the input starts with whitespace
      have hsplit : (c :: cs).takeWhile sp ++ (c :: cs).dropWhile sp = c :: cs :=
        List.takeWhile_append_dropWhile sp (c :: cs)
      have hrun_ne : (c :: cs).takeWhile sp ≠ [] := by
        rw [List.takeWhile_cons_of_pos hsp]
        simp
      have hall : ∀ x ∈ (c :: cs).takeWhile sp, sp x = true :=
        fun x hx => List.mem_takeWhile_imp hx
      have htd : tokens sp ((c :: cs).dropWhile sp) = tokens sp (c :: cs) :=
        tokens_dropWhile (c :: cs)
      have hres0 : respace sp (c :: cs) =
          respaceGo sp false ((c :: cs).takeWhile sp) ((c :: cs).dropWhile sp) := by
        conv =>
          lhs
          rw [← hsplit]
        unfold respace
        rw [respaceGo_spaces _ hall [] _]
        rw [List.nil_append]
      cases hd : (c :: cs).dropWhile sp with
      | nil =>
        have hallu : ∀ x ∈ (c :: cs), sp x = true := by
          intro x hx
          rw [← hsplit, hd, List.append_nil] at hx
          exact hall x hx
        have htk : tokens sp (c :: cs) = [] := tokens_allspace hallu
        refine ⟨[' '], [], Or.inr rfl, Or.inl rfl, ?_, ?_, ?_, fun _ => rfl, ?_⟩
        · rw [respace_allspace hallu, collapse_allspace (by simp) hallu, htk]
          rfl
        · intro c' cs' heq hf
          injection heq with e1 e2
          rw [← e1, hsp] at hf
          exact Bool.noConfusion hf
        · intro ts' hts
          rw [htk] at hts
          exact List.noConfusion hts
        · intro c' cs' heq hsc w' ts' hts
          rfl
      | cons x d2 =>
        have hx : sp x = false := head?_dropWhile_false sp (c :: cs) (by rw [hd]; rfl)
        have hdec : ((c :: cs).dropWhile sp).length < (c :: cs).length := by
          rw [List.dropWhile_cons_of_pos hsp]
          exact Nat.lt_succ_of_le (length_dropWhile_le' sp cs)
        obtain ⟨pl', pr', hpl', hpr', hc', hd', he', hf', hg'⟩ :=
          crR sp h1 h2 ((c :: cs).dropWhile sp)
        have hpl'nil : pl' = [] := hd' x d2 hd hx
        by_cases hxm : x = ','
        · -- first non-space is a comma: the run is swallowed
          have hres : respace sp (c :: cs) = respace sp ((c :: cs).dropWhile sp) := by
            rw [hres0, hd, hxm]
            rw [respaceGo_cons_comma h2 false _ d2]
            unfold respace
            rw [respaceGo_cons_comma h2 false [] d2]
          have htne : tokens sp ((c :: cs).dropWhile sp) ≠ [] := by
            rw [hd, hxm]
            exact tokens_ne_nil d2 h2
          refine ⟨[], pr', Or.inl rfl, hpr', ?_, fun _ _ _ _ => rfl, fun _ _ => rfl, ?_, ?_⟩
          · rw [hres, hc', hpl'nil, htd]
          · intro hts
            rw [← htd] at hts
            exact absurd hts htne
          · intro c' cs' heq hspc w' ts' hts
            rw [← htd, hd, hxm, tokens_cons_comma h2] at hts
            injection hts with e1 e2
            exact Tok.noConfusion e1
        · -- first non-space is a word character: the run becomes one space
          have hres : respace sp (c :: cs) =
              (c :: cs).takeWhile sp ++ respace sp ((c :: cs).dropWhile sp) := by
            rw [hres0, hd]
            rw [respaceGo_cons_word hx hxm false _ d2]
            unfold respace
            rw [respaceGo_cons_word hx hxm false [] d2]
            rw [List.nil_append]
          have hcol : collapse sp (respace sp (c :: cs)) =
              ' ' :: collapse sp (respace sp ((c :: cs).dropWhile sp)) := by
            rw [hres]
            rw [collapse_spacerun hrun_ne hall _]
            obtain ⟨y, ys, hy, hyf⟩ := @respace_head sp x d2 h2 hx
            rw [hd, hy, List.dropWhile_cons_of_neg (by simp [hyf])]
          have htne : tokens sp ((c :: cs).dropWhile sp) ≠ [] := by
            rw [hd]
            exact tokens_ne_nil d2 hx
          refine ⟨[' '], pr', Or.inr rfl, hpr', ?_, ?_, ?_, ?_, ?_⟩
          · rw [hcol, hc', hpl'nil, htd, List.nil_append]
            rfl
          · intro c' cs' heq hf
            injection heq with e1 e2
            rw [← e1, hsp] at hf
            exact Bool.noConfusion hf
          · intro ts' hts
            obtain ⟨w0, ts0, hw0⟩ := tokens_head_word d2 hx hxm
            rw [← htd, hd, hw0] at hts
            injection hts with e1 e2
            exact Tok.noConfusion e1
          · intro hts
            rw [← htd] at hts
            exact absurd hts htne
          · intro c' cs' heq hspc w' ts' hts
            rfl
    · have hcf : sp c = false := Bool.eq_false_iff.mpr hsp
      by_cases hcm : c = ','
      · -- comma head
        subst hcm
        have hres := respace_comma h2 cs
        have hdec : (cs.dropWhile sp).length < (',' :: cs).length :=
          Nat.lt_succ_of_le (length_dropWhile_le' sp cs)
        obtain ⟨pl', pr', hpl', hpr', hc', hd', he', hf', hg'⟩ :=
          crR sp h1 h2 (cs.dropWhile sp)
        have htokc : tokens sp (',' :: cs) = Tok.comma :: tokens sp (cs.dropWhile sp) := by
          rw [tokens_cons_comma h2 cs, tokens_dropWhile]
        cases hd : cs.dropWhile sp with
        | nil =>
          have hcol : collapse sp (respace sp (',' :: cs)) = [',', ' '] := by
            rw [hres, hd]
            rw [collapse_cons_nonspace _ h2, collapse_cons_space _ h1]
            rfl
          have htok : tokens sp (',' :: cs) = [Tok.comma] := by
            rw [htokc, hd, tokens_nil]
          refine ⟨[], [' '], Or.inl rfl, Or.inr rfl, ?_, fun _ _ _ _ => rfl,
            fun _ _ => rfl, ?_, ?_⟩
          · rw [hcol, htok]
            rfl
          · intro hts
            rw [htok] at hts
            exact List.noConfusion hts
          · intro c' cs' heq hspc w' ts' hts
            injection heq with e1 e2
            rw [← e1, h2] at hspc
            exact Bool.noConfusion hspc
        | cons x d2 =>
          have hx : sp x = false := head?_dropWhile_false sp cs (by rw [hd]; rfl)
          have hpl'nil : pl' = [] := hd' x d2 hd hx
          have hcol : collapse sp (respace sp (',' :: cs)) =
              ',' :: ' ' :: collapse sp (respace sp (cs.dropWhile sp)) := by
            rw [hres]
            rw [collapse_cons_nonspace _ h2, collapse_cons_space _ h1]
            obtain ⟨y, ys, hy, hyf⟩ := @respace_head sp x d2 h2 hx
            rw [hd, hy, List.dropWhile_cons_of_neg (by simp [hyf])]
          have htne : tokens sp (cs.dropWhile sp) ≠ [] := by
            rw [hd]
            exact tokens_ne_nil d2 hx
          refine ⟨[], pr', Or.inl rfl, hpr', ?_, fun _ _ _ _ => rfl,
            fun _ _ => rfl, ?_, ?_⟩
          · rw [hcol, hc', hpl'nil, List.nil_append, htokc,
              render_comma_cons htne, List.nil_append]
            rfl
          · intro hts
            rw [htokc] at hts
            exact List.noConfusion hts
          · intro c' cs' heq hspc w' ts' hts
            injection heq with e1 e2
            rw [← e1, h2] at hspc
            exact Bool.noConfusion hspc
      · -- word-character head: peel off the whole word
        have hwpc : (fun y => !sp y && !(y == ',')) c = true := by simp [hcf, hcm]
        have hsplit : (c :: cs).takeWhile (fun y => !sp y && !(y == ',')) ++
            (c :: cs).dropWhile (fun y => !sp y && !(y == ',')) = c :: cs :=
          List.takeWhile_append_dropWhile (fun y => !sp y && !(y == ',')) (c :: cs)
        have htkc : (c :: cs).takeWhile (fun y => !sp y && !(y == ',')) =
            c :: cs.takeWhile (fun y => !sp y && !(y == ',')) :=
          List.takeWhile_cons_of_pos (p := fun y => !sp y && !(y == ',')) hwpc
        have hdrc : (c :: cs).dropWhile (fun y => !sp y && !(y == ',')) =
            cs.dropWhile (fun y => !sp y && !(y == ',')) :=
          List.dropWhile_cons_of_pos (p := fun y => !sp y && !(y == ',')) hwpc
        have hw_ne : (c :: cs).takeWhile (fun y => !sp y && !(y == ',')) ≠ [] := by
          rw [htkc]
          simp
        have hwall : ∀ y ∈ (c :: cs).takeWhile (fun y => !sp y && !(y == ',')),
            sp y = false ∧ y ≠ ',' := by
          intro y hy
          have := List.mem_takeWhile_imp hy
          simp at this
          exact ⟨by simp [this.1], this.2⟩
        have hres : respace sp (c :: cs) =
            (c :: cs).takeWhile (fun y => !sp y && !(y == ',')) ++
            respace sp ((c :: cs).dropWhile (fun y => !sp y && !(y == ','))) := by
          conv =>
            lhs
            rw [← hsplit]
          exact respace_word_prefix _ hwall _
        have hcolw : collapse sp (respace sp (c :: cs)) =
            (c :: cs).takeWhile (fun y => !sp y && !(y == ',')) ++
            collapse sp (respace sp ((c :: cs).dropWhile (fun y => !sp y && !(y == ',')))) := by
          rw [hres]
          exact collapse_word_prefix _ (fun y hy => (hwall y hy).1) _
        have hrest_shape : (c :: cs).dropWhile (fun y => !sp y && !(y == ',')) = [] ∨
            ∃ r rs, (c :: cs).dropWhile (fun y => !sp y && !(y == ',')) = r :: rs ∧
              (sp r = true ∨ r = ',') := by
          cases hr : (c :: cs).dropWhile (fun y => !sp y && !(y == ',')) with
          | nil => exact Or.inl rfl
          | cons r rs =>
            refine Or.inr ⟨r, rs, rfl, ?_⟩
            have := @head?_dropWhile_false Char (fun y => !sp y && !(y == ','))
              (c :: cs) r (by rw [hr]; rfl)
            simp at this
            by_cases hrsp : sp r = true
            · exact Or.inl hrsp
            · exact Or.inr (this (Bool.eq_false_iff.mpr hrsp))
        have htoku : tokens sp (c :: cs) =
            Tok.word ((c :: cs).takeWhile (fun y => !sp y && !(y == ','))) ::
            tokens sp ((c :: cs).dropWhile (fun y => !sp y && !(y == ','))) := by
          conv =>
            lhs
            rw [← hsplit]
          exact tokens_word_prefix hw_ne hwall _ hrest_shape
        have hdec : ((c :: cs).dropWhile (fun y => !sp y && !(y == ','))).length <
            (c :: cs).length := by
          rw [hdrc]
          exact Nat.lt_succ_of_le (length_dropWhile_le' _ cs)
        rcases hrest_shape with hrnil | ⟨r, rs, hrc, hr⟩
        · refine ⟨[], [], Or.inl rfl, Or.inl rfl, ?_, fun _ _ _ _ => rfl,
            fun _ _ => rfl, ?_, ?_⟩
          · rw [hcolw, hrnil, htoku, hrnil, tokens_nil, render_word_one]
            rfl
          · intro hts
            rfl
          · intro c' cs' heq hspc w' ts' hts
            injection heq with e1 e2
            rw [← e1, hcf] at hspc
            exact Bool.noConfusion hspc
        · obtain ⟨pl', pr', hpl', hpr', hc', hd', he', hf', hg'⟩ :=
            crR sp h1 h2 ((c :: cs).dropWhile (fun y => !sp y && !(y == ',')))
          rcases hr with hrsp | hrcm
          · -- whitespace after the word
            cases htr : tokens sp ((c :: cs).dropWhile (fun y => !sp y && !(y == ','))) with
            | nil =>
              have hpr'nil : pr' = [] := hf' htr
              refine ⟨[], pl', Or.inl rfl, hpl', ?_, fun _ _ _ _ => rfl,
                fun _ _ => rfl, ?_, ?_⟩
              · rw [hcolw, hc', htr, hpr'nil, htoku, htr, render_word_one]
                simp [render]
              · intro hts
                rw [htoku] at hts
                exact List.noConfusion hts
              · intro c' cs' heq hspc w' ts' hts
                injection heq with e1 e2
                rw [← e1, hcf] at hspc
                exact Bool.noConfusion hspc
            | cons t0 ts0 =>
              cases t0 with
              | comma =>
                have hpl'nil : pl' = [] := he' ts0 htr
                refine ⟨[], pr', Or.inl rfl, hpr', ?_, fun _ _ _ _ => rfl,
                  fun _ _ => rfl, ?_, ?_⟩
                · rw [hcolw, hc', hpl'nil, htoku, htr, render_word_comma]
                  simp
                · intro hts
                  rw [htoku] at hts
                  exact List.noConfusion hts
                · intro c' cs' heq hspc w' ts' hts
                  injection heq with e1 e2
                  rw [← e1, hcf] at hspc
                  exact Bool.noConfusion hspc
              | word v =>
                have hpl'sp : pl' = [' '] := hg' r rs hrc hrsp v ts0 htr
                refine ⟨[], pr', Or.inl rfl, hpr', ?_, fun _ _ _ _ => rfl,
                  fun _ _ => rfl, ?_, ?_⟩
                · rw [hcolw, hc', hpl'sp, htoku, htr, render_word_word]
                  simp
                · intro hts
                  rw [htoku] at hts
                  exact List.noConfusion hts
                · intro c' cs' heq hspc w' ts' hts
                  injection heq with e1 e2
                  rw [← e1, hcf] at hspc
                  exact Bool.noConfusion hspc
          · -- a comma directly after the word
            have hpl'nil : pl' = [] := hd' r rs hrc (by rw [hrcm]; exact h2)
            have htr : tokens sp ((c :: cs).dropWhile (fun y => !sp y && !(y == ','))) =
                Tok.comma :: tokens sp rs := by
              rw [hrc, hrcm]
              exact tokens_cons_comma h2 rs
            refine ⟨[], pr', Or.inl rfl, hpr', ?_, fun _ _ _ _ => rfl,
              fun _ _ => rfl, ?_, ?_⟩
            · rw [hcolw, hc', hpl'nil, htoku, htr, render_word_comma]
              simp
            · intro hts
              rw [htoku] at hts
              exact List.noConfusion hts
            · intro c' cs' heq hspc w' ts' hts
              injection heq with e1 e2
              rw [← e1, hcf] at hspc
              exact Bool.noConfusion hspc
termination_by u => u.length
decreasing_by
  all_goals exact hdec

/-! ## Pad and render lemmas for the normal-form argument -/

theorem getLast?_append_right {α : Type} (l₁ : List α) {l₂ : List α} (h : l₂ ≠ []) :
    (l₁ ++ l₂).getLast? = l₂.getLast? := by
  rw [← List.head?_reverse, ← List.head?_reverse, List.reverse_append]
  cases hr : l₂.reverse with
  | nil => exact absurd (List.reverse_eq_nil_iff.mp hr) h
  | cons x xs => rfl

theorem backTrim_append_space {sp : Char → Bool} (h1 : sp ' ' = true) (x : Str) :
    backTrim sp (x ++ [' ']) = backTrim sp x := by
  unfold backTrim
  have hrev : (x ++ [' ']).reverse = ' ' :: x.reverse := by simp
  rw [hrev, List.dropWhile_cons_of_pos h1]

theorem backTrim_last_nonspace {sp : Char → Bool} {x : Str} {d : Char}
    (hd : x.getLast? = some d) (hds : sp d = false) : backTrim sp x = x := by
  have hh : x.reverse.head? = some d := by rw [List.head?_reverse]; exact hd
  cases hx : x.reverse with
  | nil => rw [hx] at hh; exact Option.noConfusion hh
  | cons e es =>
    rw [hx] at hh
    injection hh with he
    have hdw : List.dropWhile sp (e :: es) = e :: es :=
      List.dropWhile_cons_of_neg (by rw [he]; simp [hds])
    unfold backTrim
    rw [hx, hdw, ← hx, List.reverse_reverse]

/-- Trimming removes single optional space pads around a core whose first and
last characters are not whitespace. -/
theorem trim_pads {sp : Char → Bool} (h1 : sp ' ' = true) {pl pr core : Str}
    (hpl : pl = [] ∨ pl = [' ']) (hpr : pr = [] ∨ pr = [' '])
    (hhead : ∃ c cr, core = c :: cr ∧ sp c = false)
    (hlast : ∃ d, core.getLast? = some d ∧ sp d = false) :
    trim sp (pl ++ core ++ pr) = core := by
  obtain ⟨c, cr, hc, hcs⟩ := hhead
  obtain ⟨d, hd, hds⟩ := hlast
  have hfront : frontTrim sp (pl ++ core ++ pr) = core ++ pr := by
    rcases hpl with rfl | rfl
    · rw [List.nil_append]
      unfold frontTrim
      rw [hc]
      exact List.dropWhile_cons_of_neg (by simp [hcs])
    · unfold frontTrim
      show ((' ' :: (core ++ pr)).dropWhile sp) = core ++ pr
      rw [List.dropWhile_cons_of_pos h1, hc]
      exact List.dropWhile_cons_of_neg (by simp [hcs])
  have hback : backTrim sp (core ++ pr) = core := by
    rcases hpr with rfl | rfl
    · rw [List.append_nil]
      exact backTrim_last_nonspace hd hds
    · rw [backTrim_append_space h1]
      exact backTrim_last_nonspace hd hds
  rw [trim_eq_back_front, hfront, hback]

/-- A non-empty stream of well-formed tokens renders to a non-empty string. -/
theorem render_ne_nil {sp : Char → Bool} :
    ∀ {ts : List Tok}, ts ≠ [] → (∀ t ∈ ts, wfTok sp t) → render ts ≠ [] := by
  intro ts hne hwf
  match ts, hne with
  | Tok.comma :: rest, _ =>
    cases rest with
    | nil => simp [render]
    | cons r rs =>
      rw [render_comma_cons (by simp)]
      simp
  | Tok.word w :: rest, _ =>
    have hw : w ≠ [] := (hwf (Tok.word w) (by simp)).1
    cases rest with
    | nil =>
      rw [render_word_one]
      exact hw
    | cons r rs =>
      cases r with
      | comma =>
        rw [render_word_comma]
        intro h
        exact hw (List.append_eq_nil.mp h).1
      | word v =>
        rw [render_word_word]
        intro h
        exact List.noConfusion (List.append_eq_nil.mp h).2

/-- The rendering of a non-empty well-formed stream starts with a
non-whitespace character. -/
theorem render_head_nonspace {sp : Char → Bool} (h2 : sp ',' = false) :
    ∀ {ts : List Tok}, ts ≠ [] → (∀ t ∈ ts, wfTok sp t) →
      ∃ c cr, render ts = c :: cr ∧ sp c = false := by
  intro ts hne hwf
  match ts, hne with
  | Tok.comma :: rest, _ =>
    obtain ⟨r, hr⟩ := render_head_comma rest
    exact ⟨',', r, hr, h2⟩
  | Tok.word w :: rest, _ =>
    have hwfw := hwf (Tok.word w) (by simp)
    obtain ⟨a, w', ha⟩ : ∃ a w', w = a :: w' := by
      cases w with
      | nil => exact absurd rfl hwfw.1
      | cons a w' => exact ⟨a, w', rfl⟩
    have has : sp a = false := (hwfw.2 a (by rw [ha]; simp)).1
    cases rest with
    | nil => exact ⟨a, w', by rw [render_word_one, ha], has⟩
    | cons r rs =>
      cases r with
      | comma =>
        exact ⟨a, w' ++ render (Tok.comma :: rs), by rw [render_word_comma, ha]; rfl, has⟩
      | word v =>
        exact ⟨a, w' ++ ' ' :: render (Tok.word v :: rs),
          by rw [render_word_word, ha]; rfl, has⟩

/-- The rendering of a non-empty well-formed stream ends in a non-whitespace
character. -/
theorem render_last_nonspace {sp : Char → Bool} (h2 : sp ',' = false) :
    ∀ ts : List Tok, ts ≠ [] → (∀ t ∈ ts, wfTok sp t) →
      ∃ d, (render ts).getLast? = some d ∧ sp d = false := by
  intro ts
  induction ts with
  | nil => intro hne _; exact absurd rfl hne
  | cons t rest ih =>
    intro _ hwf
    have hwrest : ∀ x ∈ rest, wfTok sp x := fun x hx => hwf x (by simp [hx])
    cases t with
    | comma =>
      cases rest with
      | nil => exact ⟨',', rfl, h2⟩
      | cons r rs =>
        obtain ⟨d, hd, hds⟩ := ih (by simp) hwrest
        have hrne : render (r :: rs) ≠ [] := render_ne_nil (by simp) hwrest
        refine ⟨d, ?_, hds⟩
        rw [render_comma_cons (show (r :: rs) ≠ [] by simp)]
        show ([',', ' '] ++ render (r :: rs)).getLast? = some d
        rw [getLast?_append_right _ hrne]
        exact hd
    | word w =>
      have hwfw := hwf (Tok.word w) (by simp)
      cases rest with
      | nil =>
        cases hx : w.reverse with
        | nil => exact absurd (List.reverse_eq_nil_iff.mp hx) hwfw.1
        | cons d ds =>
          have hdm : d ∈ w := by
            rw [← List.mem_reverse, hx]
            simp
          refine ⟨d, ?_, (hwfw.2 d hdm).1⟩
          rw [render_word_one, ← List.head?_reverse, hx]
          rfl
      | cons r rs =>
        obtain ⟨d, hd, hds⟩ := ih (by simp) hwrest
        have hrne : render (r :: rs) ≠ [] := render_ne_nil (by simp) hwrest
        cases r with
        | comma =>
          refine ⟨d, ?_, hds⟩
          rw [render_word_comma, getLast?_append_right _ hrne]
          exact hd
        | word v =>
          refine ⟨d, ?_, hds⟩
          rw [render_word_word]
          show (w ++ (' ' :: render (Tok.word v :: rs))).getLast? = some d
          rw [getLast?_append_right _ (by simp)]
          show ([' '] ++ render (Tok.word v :: rs)).getLast? = some d
          rw [getLast?_append_right _ hrne]
          exact hd

/-- Direction A: the collapsing and respacing substitutions followed by a trim
compute the canonical rendering of the token stream of the input. -/
theorem crA {sp : Char → Bool} (h1 : sp ' ' = true) (h2 : sp ',' = false) (u : Str) :
    trim sp (collapse sp (respace sp u)) = render (tokens sp u) := by
  obtain ⟨pl, pr, hpl, hpr, hc, _, _, hf, _⟩ := crR sp h1 h2 u
  cases htk : tokens sp u with
  | nil =>
    have hpr0 : pr = [] := hf htk
    rw [hc, htk, hpr0]
    show trim sp (pl ++ [] ++ []) = ([] : Str)
    rw [List.append_nil, List.append_nil]
    rcases hpl with rfl | rfl
    · rfl
    · exact trim_allspace (by
        intro c hcm
        simp at hcm
        rw [hcm]
        exact h1)
  | cons t ts' =>
    have hwf : ∀ x ∈ (t :: ts'), wfTok sp x := by
      rw [← htk]
      exact tokens_wf u
    rw [hc, htk]
    exact trim_pads h1 hpl hpr (render_head_nonspace h2 (by simp) hwf)
      (render_last_nonspace h2 (t :: ts') (by simp) hwf)

/-- Direction B: tokenising the canonical rendering of a well-formed token stream
recovers the stream. -/
theorem tokens_render {sp : Char → Bool} (h1 : sp ' ' = true) (h2 : sp ',' = false) :
    ∀ ts : List Tok, (∀ t ∈ ts, wfTok sp t) → tokens sp (render ts) = ts := by
  intro ts
  induction ts with
  | nil => intro _; rfl
  | cons t rest ih =>
    intro hwf
    have hwrest : ∀ x ∈ rest, wfTok sp x := fun x hx => hwf x (by simp [hx])
    cases t with
    | comma =>
      cases rest with
      | nil =>
        show tokens sp [','] = [Tok.comma]
        rw [tokens_cons_comma h2, tokens_nil]
      | cons r rs =>
        rw [render_comma_cons (show (r :: rs) ≠ [] by simp), tokens_cons_comma h2,
          tokens_cons_space _ h1, ih hwrest]
    | word w =>
      have hwfw := hwf (Tok.word w) (by simp)
      cases rest with
      | nil =>
        rw [render_word_one]
        have hpw := tokens_word_prefix hwfw.1 hwfw.2 [] (Or.inl rfl)
        rw [List.append_nil] at hpw
        rw [hpw, tokens_nil]
      | cons r rs =>
        cases r with
        | comma =>
          rw [render_word_comma]
          obtain ⟨rr, hrr⟩ := render_head_comma rs
          rw [ tokens_word_prefix hwfw.1 hwfw.2 _
            (Or.inr ⟨',', rr, hrr, Or.inr rfl⟩), ih hwrest]
        | word v =>
          rw [render_word_word]
          rw [ tokens_word_prefix hwfw.1 hwfw.2 _
            (Or.inr ⟨' ', render (Tok.word v :: rs), rfl, Or.inl h1⟩),
            tokens_cons_space _ h1, ih hwrest]

/-- The respace-collapse-trim pipeline is idempotent. -/
theorem pipeline_idem {sp : Char → Bool} (h1 : sp ' ' = true) (h2 : sp ',' = false)
    (u : Str) :
    trim sp (collapse sp (respace sp (trim sp (collapse sp (respace sp u))))) =
      trim sp (collapse sp (respace sp u)) := by
  rw [crA h1 h2 u, crA h1 h2 (render (tokens sp u)),
    tokens_render h1 h2 (tokens sp u) (tokens_wf u)]

/-! ## Character provenance through the normalizer -/

theorem mem_of_mem_dropWhile {α : Type} {p : α → Bool} {c : α} :
    ∀ {l : List α}, c ∈ l.dropWhile p → c ∈ l := by
  intro l
  induction l with
  | nil =>
    intro h
    exact absurd h (by simp)
  | cons x xs ih =>
    intro h
    by_cases hx : p x
    · rw [List.dropWhile_cons_of_pos hx] at h
      exact List.mem_cons_of_mem x (ih h)
    · rw [List.dropWhile_cons_of_neg hx] at h
      exact h

theorem mem_of_mem_trim {sp : Char → Bool} {l : Str} {c : Char}
    (h : c ∈ trim sp l) : c ∈ l := by
  unfold trim at h
  rw [List.mem_reverse] at h
  have h2' := mem_of_mem_dropWhile h
  rw [List.mem_reverse] at h2'
  exact mem_of_mem_dropWhile h2'

theorem mem_collapseGo {sp : Char → Bool} {c : Char} :
    ∀ (b : Bool) (l : Str), c ∈ collapseGo sp b l → c = ' ' ∨ c ∈ l := by
  intro b l
  induction l generalizing b with
  | nil =>
    intro h
    exact absurd h (by simp [collapseGo])
  | cons x xs ih =>
    intro h
    by_cases hx : sp x
    · cases b with
      | false =>
        rw [collapseGo_cons_space_false hx] at h
        rcases List.mem_cons.mp h with rfl | h'
        · exact Or.inl rfl
        · rcases ih true h' with h'' | h''
          · exact Or.inl h''
          · exact Or.inr (List.mem_cons_of_mem x h'')
      | true =>
        rw [collapseGo_cons_space_true hx] at h
        rcases ih true h with h'' | h''
        · exact Or.inl h''
        · exact Or.inr (List.mem_cons_of_mem x h'')
    · rw [collapseGo_cons_nonspace (Bool.eq_false_iff.mpr hx)] at h
      rcases List.mem_cons.mp h with rfl | h'
      · exact Or.inr (List.mem_cons_self c xs)
      · rcases ih false h' with h'' | h''
        · exact Or.inl h''
        · exact Or.inr (List.mem_cons_of_mem x h'')

theorem mem_respaceGo {sp : Char → Bool} {c : Char} :
    ∀ (b : Bool) (pending l : Str), c ∈ respaceGo sp b pending l →
      c ∈ pending ∨ c ∈ l ∨ c = ',' ∨ c = ' ' := by
  intro b pending l
  induction l generalizing b pending with
  | nil =>
    intro h
    rw [respaceGo_nil] at h
    exact Or.inl h
  | cons x xs ih =>
    intro h
    by_cases hx : sp x
    · cases b with
      | true =>
        rw [respaceGo_cons_space_true hx] at h
        rcases ih true pending h with h' | h' | h' | h'
        · exact Or.inl h'
        · exact Or.inr (Or.inl (List.mem_cons_of_mem x h'))
        · exact Or.inr (Or.inr (Or.inl h'))
        · exact Or.inr (Or.inr (Or.inr h'))
      | false =>
        rw [respaceGo_cons_space_false hx] at h
        rcases ih false (pending ++ [x]) h with h' | h' | h' | h'
        · rcases List.mem_append.mp h' with h'' | h''
          · exact Or.inl h''
          · simp at h''
            exact Or.inr (Or.inl (by rw [h'']; exact List.mem_cons_self x xs))
        · exact Or.inr (Or.inl (List.mem_cons_of_mem x h'))
        · exact Or.inr (Or.inr (Or.inl h'))
        · exact Or.inr (Or.inr (Or.inr h'))
    · by_cases hxm : x = ','
      · subst hxm
        rw [respaceGo_cons_comma (Bool.eq_false_iff.mpr hx)] at h
        rcases List.mem_cons.mp h with rfl | h'
        · exact Or.inr (Or.inr (Or.inl rfl))
        rcases List.mem_cons.mp h' with rfl | h''
        · exact Or.inr (Or.inr (Or.inr rfl))
        rcases ih true [] h'' with h3 | h3 | h3 | h3
        · exact absurd h3 (by simp)
        · exact Or.inr (Or.inl (List.mem_cons_of_mem _ h3))
        · exact Or.inr (Or.inr (Or.inl h3))
        · exact Or.inr (Or.inr (Or.inr h3))
      · rw [respaceGo_cons_word (Bool.eq_false_iff.mpr hx) hxm] at h
        rcases List.mem_append.mp h with h' | h'
        · exact Or.inl h'
        rcases List.mem_cons.mp h' with rfl | h''
        · exact Or.inr (Or.inl (List.mem_cons_self c xs))
        rcases ih false [] h'' with h3 | h3 | h3 | h3
        · exact absurd h3 (by simp)
        · exact Or.inr (Or.inl (List.mem_cons_of_mem x h3))
        · exact Or.inr (Or.inr (Or.inl h3))
        · exact Or.inr (Or.inr (Or.inr h3))

theorem mem_respace {sp : Char → Bool} {l : Str} {c : Char}
    (h : c ∈ respace sp l) : c ∈ l ∨ c = ',' ∨ c = ' ' := by
  rcases mem_respaceGo false [] l h with h' | h' | h' | h'
  · exact absurd h' (by simp)
  · exact Or.inl h'
  · exact Or.inr (Or.inl h')
  · exact Or.inr (Or.inr h')

theorem map_fix {α : Type} {f : α → α} :
    ∀ (l : List α), (∀ c ∈ l, f c = c) → l.map f = l := by
  intro l
  induction l with
  | nil => intro _; rfl
  | cons x xs ih =>
    intro h
    rw [List.map_cons, h x (by simp), ih (fun c hc => h c (by simp [hc]))]

/-- Every character of the normalizer output is in the kept class and is not
one of the two replaced dashes. -/
theorem normalize_chars {M : TextModel} (h1 : M.isSpace ' ' = true) (s : Str) :
    ∀ c ∈ normalize M s, keepChar M c = true ∧ c ≠ '—' ∧ c ≠ '–' := by
  intro c hc
  simp only [normalize] at hc
  split at hc
  · exact absurd hc (by simp)
  · have hc2 := mem_of_mem_trim hc
    rcases mem_collapseGo false _ hc2 with rfl | hc3
    · exact ⟨by simp [keepChar, h1], by decide, by decide⟩
    rcases mem_respace hc3 with hc4 | rfl | rfl
    · rw [List.mem_map] at hc4
      obtain ⟨y, hy, hyc⟩ := hc4
      have hyc' : (if keepChar M y then y else ' ') = c := hyc
      by_cases hk : keepChar M y
      · rw [if_pos hk] at hyc'
        subst hyc'
        rw [List.mem_map] at hy
        obtain ⟨z, hz, hzy⟩ := hy
        have hzy' : (if z = '–' then '-' else z) = y := hzy
        rw [List.mem_map] at hz
        obtain ⟨w0, _, hwz⟩ := hz
        have hwz' : (if w0 = '—' then '-' else w0) = z := hwz
        refine ⟨hk, ?_, ?_⟩
        · intro hcon
          by_cases hz2 : z = '–'
          · rw [if_pos hz2] at hzy'
            rw [← hzy'] at hcon
            exact absurd hcon (by decide)
          · rw [if_neg hz2] at hzy'
            subst hzy'
            by_cases hw2 : w0 = '—'
            · rw [if_pos hw2] at hwz'
              rw [← hwz'] at hcon
              exact absurd hcon (by decide)
            · rw [if_neg hw2] at hwz'
              subst hwz'
              exact hw2 hcon
        · intro hcon
          by_cases hz2 : z = '–'
          · rw [if_pos hz2] at hzy'
            rw [← hzy'] at hcon
            exact absurd hcon (by decide)
          · rw [if_neg hz2] at hzy'
            subst hzy'
            exact hz2 hcon
      · rw [if_neg hk] at hyc'
        subst hyc'
        exact ⟨by simp [keepChar, h1], by decide, by decide⟩
    · exact ⟨by simp [keepChar], by decide, by decide⟩
    · exact ⟨by simp [keepChar, h1], by decide, by decide⟩

/-- The normalizer output carries no leading or trailing whitespace. -/
theorem normalize_trimmed (M : TextModel) (s : Str) :
    trim M.isSpace (normalize M s) = normalize M s := by
  simp only [normalize]
  split
  · rfl
  · exact trim_idem _ _

/-- Restating normalize on an input that is already trimmed, non-empty,
fixed by the Unicode plumbing, dash-free and inside the kept character
class: only the respace-collapse-trim pipeline remains. -/
theorem normalize_fixed_input {M : TextModel} {n : Str} (hn : n ≠ [])
    (htr : trim M.isSpace n = n)
    (hUn : M.stripDia (M.lower (M.nfkc n)) = n)
    (hch : ∀ c ∈ n, keepChar M c = true ∧ c ≠ '—' ∧ c ≠ '–') :
    normalize M n = trim M.isSpace (collapse M.isSpace (respace M.isSpace n)) := by
  unfold normalize
  simp only []
  rw [htr, if_neg hn, hUn,
    map_fix _ (fun c hc => if_neg (hch c hc).2.1),
    map_fix _ (fun c hc => if_neg (hch c hc).2.2),
    map_fix _ (fun c hc => if_pos (hch c hc).1)]

/-- C7: the normalizer is idempotent — normalize (normalize s) = normalize s
for every string s, for any text model whose whitespace class contains the
space and excludes the comma and whose Unicode passes (NFKC, lowercasing,
diacritic stripping) fix the normalizer's output. -/
theorem claim_C7_normalize_idempotent (M : TextModel)
    (h1 : M.isSpace ' ' = true) (h2 : M.isSpace ',' = false) (s : Str)
    (hU : M.stripDia (M.lower (M.nfkc (normalize M s))) = normalize M s) :
    normalize M (normalize M s) = normalize M s := by
  by_cases hn : normalize M s = []
  · rw [hn]
    rfl
  · rw [normalize_fixed_input hn (normalize_trimmed M s) hU (normalize_chars h1 s)]
    have hs_ne : trim M.isSpace s ≠ [] := by
      intro h0
      apply hn
      unfold normalize
      simp only []
      rw [if_pos h0]
    have hform : normalize M s = trim M.isSpace (collapse M.isSpace (respace M.isSpace
        ((((M.stripDia (M.lower (M.nfkc (trim M.isSpace s)))).map
          (fun c => if c = '—' then '-' else c)).map
          (fun c => if c = '–' then '-' else c)).map
          (fun c => if keepChar M c then c else ' ')))) := by
      unfold normalize
      simp only []
      rw [if_neg hs_ne]
    rw [hform]
    exact pipeline_idem h1 h2 _

/-- Witness for C7: the hypotheses hold for the ASCII model at the input
" 1   a ,b  " and the normalizer is idempotent there. -/
theorem claim_C7_normalize_idempotent_witness :
    asciiM.isSpace ' ' = true ∧ asciiM.isSpace ',' = false ∧
    asciiM.stripDia (asciiM.lower (asciiM.nfkc (normalize asciiM
      (String.toList " 1   a ,b  ")))) = normalize asciiM (String.toList " 1   a ,b  ") ∧
    normalize asciiM (normalize asciiM (String.toList " 1   a ,b  ")) =
      normalize asciiM (String.toList " 1   a ,b  ") :=
  ⟨by decide, by decide, by decide,
    claim_C7_normalize_idempotent asciiM (by decide) (by decide)
      (String.toList " 1   a ,b  ") (by decide)⟩

end AddrSim




